import Mathlib

/-!
# Verification of the playlist generator's aggregation core

Shallow embedding of `generator.py` (stages: event filter, artist-pattern
filter, aggregation, artist selection, per-artist track ranking, final
ordering, URI deduplication) together with proofs checking the
natural-language specification's claims against it.

Modelling notes (pandas semantics made explicit):
* a DataFrame is a `List` of row structures; row order is the frame order;
* `groupby(key, dropna=False).sum()` with its default `sort=True` yields one
  row per distinct key, ordered ascending by the key (for the multi-level
  key `(artist, track, uri)` the order is lexicographic with a null `uri`
  sorted last, as pandas sorts `NaN` last within a level);
* `Series.sort_values(ascending=False)` is the reverse of a stable ascending
  argsort, following the pandas `nargsort` implementation, which reverses an
  ascending indexer for descending order;
* `DataFrame.sort_values(by=[...], ascending=[...], kind="mergesort")` is a
  stable lexicographic sort that handles per-column direction by inverting
  codes, so rows whose whole key ties keep their prior relative order;
* `merge(..., on="artist", how="inner")` preserves the order of the left
  frame's rows (documented pandas behaviour), each row picking up the
  matching right row's `artist_ms`;
* `groupby("artist")["track_ms"].rank(method="first", ascending=False)`
  assigns, within each artist, rank `1 + (number of same-artist rows with a
  strictly larger value anywhere in the frame) + (number of same-artist rows
  with an equal value appearing strictly earlier in the frame)`;
* missing scalars (`NaN` / `None` / `NaT`) are `Option.none`; a timestamp is
  modelled by its parsed year (`none` = null or unparseable);
* Python truthiness of an optional year argument (`if year_start:`) is
  false for both `None` and `0`, modelled by `pyTruthy`.
-/

/-- One raw Spotify streaming-history record, as assembled by
`_load_history` (missing columns filled with null).  `ts` is the parsed
timestamp reduced to its year (`none` = null or unparseable). -/
structure RawEvent where
  ts : Option Int
  ms_played : Option Nat
  track_name : Option String
  artist_name : Option String
  uri : Option String
  episode_name : Option String
  audiobook_title : Option String
deriving DecidableEq

/-- A filtered music row, the column selection
`df[["ts", "ms", "artist", "track", "uri"]]` at the end of
`_filter_music_rows` (rows reaching this point have non-null artist and
track). -/
structure Row where
  ts : Option Int
  ms : Option Nat
  artist : String
  track : String
  uri : Option String
deriving DecidableEq

/-- Python truthiness of an optional integer: `None` and `0` are falsy. -/
def pyTruthy : Option Int → Bool
  | none => false
  | some n => n != 0

/-- The row-dropping part of `_filter_music_rows`: podcast/audiobook rows,
rows with missing track or artist, rows below `min_play_ms` (missing
`ms_played` counted as 0), and — when a year bound is truthy — rows with a
null timestamp or a year outside the bounds. -/
def filterRaw (df : List RawEvent) (min_play_ms : Nat)
    (year_start year_end : Option Int) : List RawEvent :=
  let df1 := df.filter (fun e => e.episode_name.isNone && e.audiobook_title.isNone)
  let df2 := df1.filter (fun e => e.track_name.isSome && e.artist_name.isSome)
  let df3 := df2.filter (fun e => min_play_ms ≤ e.ms_played.getD 0)
  if pyTruthy year_start || pyTruthy year_end then
    let df4 := df3.filter (fun e => e.ts.isSome)
    let df5 := if pyTruthy year_start then
        df4.filter (fun e => year_start.getD 0 ≤ e.ts.getD 0)
      else df4
    if pyTruthy year_end then
      df5.filter (fun e => e.ts.getD 0 ≤ year_end.getD 0)
    else df5
  else df3

/-- The column renaming/selection at the end of `_filter_music_rows`. -/
def toRow (e : RawEvent) : Row :=
  { ts := e.ts, ms := e.ms_played, artist := e.artist_name.getD "",
    track := e.track_name.getD "", uri := e.uri }

/-- `_filter_music_rows`. -/
def filter_music_rows (df : List RawEvent) (min_play_ms : Nat)
    (year_start year_end : Option Int) : List Row :=
  (filterRaw df min_play_ms year_start year_end).map toRow

/-! ## Pattern filter -/

/-- `needle` is a prefix of `hay` (character lists). -/
def charsStart : List Char → List Char → Bool
  | [], _ => true
  | _ :: _, [] => false
  | a :: n, b :: h => (a == b) && charsStart n h

/-- `needle` occurs somewhere inside `hay` (character lists). -/
def charsHas (hay needle : List Char) : Bool :=
  match hay with
  | [] => needle.isEmpty
  | _ :: t => charsStart needle hay || charsHas t needle

/-- ASCII lower-casing of one character (the case folding used for the
case-insensitive match). -/
def charLower (c : Char) : Char :=
  if 65 ≤ c.toNat ∧ c.toNat ≤ 90 then Char.ofNat (c.toNat + 32) else c

/-- Case-insensitive literal substring test.  This is the semantics of
`df["artist"].str.contains(regex, case=False)` where `regex` is the
`|`-join of `re.escape`d patterns: escaping makes each alternative match
itself literally. -/
def containsCI (hay pat : String) : Bool :=
  charsHas (hay.data.map charLower) (pat.data.map charLower)

/-- `_apply_artist_patterns`: empty pattern list is a passthrough, otherwise
`include` keeps matching rows, `exclude` keeps non-matching rows, and any
other mode raises `ValueError`. -/
def apply_artist_patterns (df : List Row) (patterns : List String)
    (mode : String) : Except String (List Row) :=
  if patterns.isEmpty then .ok df
  else if mode == "include" then
    .ok (df.filter (fun r => patterns.any (fun p => containsCI r.artist p)))
  else if mode == "exclude" then
    .ok (df.filter (fun r => !(patterns.any (fun p => containsCI r.artist p))))
  else .error "artists_filter_mode must be 'exclude' or 'include'."

/-! ## A stable insertion sort

The embedding's single sorting primitive.  `isort le` keeps elements that
compare equal (`le` both ways) in their input order, which is exactly what
both a stable ascending argsort (artist totals, before reversal) and
pandas' stable multi-column `sort_values(kind="mergesort")` do. -/

/-- Insert `a` in front of the first element `b` of `l` with `le a b`. -/
def ordIns {α : Type} (le : α → α → Bool) (a : α) : List α → List α
  | [] => [a]
  | b :: l => if le a b then a :: b :: l else b :: ordIns le a l

/-- Stable insertion sort by the boolean relation `le`. -/
def isort {α : Type} (le : α → α → Bool) : List α → List α
  | [] => []
  | a :: l => ordIns le a (isort le l)

/-! ## First-occurrence deduplication -/

/-- Keep the first occurrence of every element, dropping later duplicates.
This is both the order in which `groupby` sees its distinct keys (before it
sorts them) and the specification's description of the URI deduplication. -/
def dedupF {α : Type} [DecidableEq α] : List α → List α
  | [] => []
  | a :: l => a :: dedupF (l.filter (fun b => b ≠ a))
termination_by l => l.length
decreasing_by
  simp only [List.length_cons]
  exact Nat.lt_succ_of_le (List.length_filter_le _ _)

/-- First-occurrence deduplication with an explicit seen-set accumulator
(structurally recursive, so concrete runs evaluate).  `dedupAcc [] l`
agrees with `dedupF l`. -/
def dedupAcc {α : Type} [DecidableEq α] (seen : List α) : List α → List α
  | [] => []
  | a :: l => if a ∈ seen then dedupAcc seen l else a :: dedupAcc (a :: seen) l

/-! ## Aggregation (`_aggregate_and_order`) -/

/-- One row of the artist-totals frame
`df.groupby("artist")["ms"].sum().reset_index(name="artist_ms")`. -/
structure ArtistTotal where
  artist : String
  artist_ms : Nat
deriving DecidableEq

/-- One row of the track-totals frame
`df.groupby(["artist", "track", "uri"])["ms"].sum().reset_index(name="track_ms")`. -/
structure TrackTotal where
  artist : String
  track : String
  uri : Option String
  track_ms : Nat
deriving DecidableEq

/-- A track-totals row after the inner merge with the selected artists,
carrying the artist's `artist_ms`. -/
structure MergedRow where
  artist : String
  track : String
  uri : Option String
  track_ms : Nat
  artist_ms : Nat
deriving DecidableEq

/-- A merged row annotated with its `rank_in_artist`. -/
structure RankedRow where
  row : MergedRow
  rank_in_artist : Nat
deriving DecidableEq

/-- Ascending order on `artist_ms` (the stable argsort underlying
`sort_values(ascending=False)` on the artist totals). -/
def msLeB (x y : ArtistTotal) : Bool := x.artist_ms ≤ y.artist_ms

/-- Strict lexicographic order on character lists by code point — the
order Python (and hence pandas sorting of string keys) uses. -/
def charListLt : List Char → List Char → Bool
  | _, [] => false
  | [], _ :: _ => true
  | a :: s, b :: t =>
      decide (a.toNat < b.toNat) || (a == b && charListLt s t)

/-- Strict string order by code points. -/
def strLtB (a b : String) : Bool := charListLt a.data b.data

/-- Non-strict string order by code points. -/
def strLeB (a b : String) : Bool := !(charListLt b.data a.data)

/-- Ascending order on optional strings with nulls last, the order pandas
uses for an `NaN`-containing group-key level. -/
def optLeB : Option String → Option String → Bool
  | none, none => true
  | none, some _ => false
  | some _, none => true
  | some a, some b => strLeB a b

/-- Strict part of `optLeB`. -/
def optLtB (u v : Option String) : Bool := optLeB u v && !(optLeB v u)

/-- Lexicographic ascending order on the `(artist, track, uri)` group key. -/
def tkeyLeB (x y : String × String × Option String) : Bool :=
  strLtB x.1 y.1 || (x.1 == y.1 &&
    (strLtB x.2.1 y.2.1 || (x.2.1 == y.2.1 && optLeB x.2.2 y.2.2)))

/-- Sum of `ms` (missing counted 0, as `groupby(...).sum()` skips NaN)
over the rows of a given artist. -/
def sumMsFor (df : List Row) (a : String) : Nat :=
  ((df.filter (fun r => r.artist == a)).map (fun r => r.ms.getD 0)).sum

/-- Sum of `ms` over the rows of a given `(artist, track, uri)` key. -/
def sumKeyFor (df : List Row) (k : String × String × Option String) : Nat :=
  ((df.filter (fun r => r.artist == k.1 && r.track == k.2.1 && r.uri == k.2.2)).map
    (fun r => r.ms.getD 0)).sum

/-- `df.groupby("artist", dropna=False)["ms"].sum()`: one row per distinct
artist, ordered ascending by artist name (`sort=True` default). -/
def artistTotals (df : List Row) : List ArtistTotal :=
  (isort strLeB (dedupAcc [] (df.map Row.artist))).map
    (fun a => { artist := a, artist_ms := sumMsFor df a })

/-- `.sort_values(ascending=False)` on the artist totals: the reverse of a
stable ascending sort (pandas `nargsort` reverses an ascending indexer). -/
def artistOrder (df : List Row) : List ArtistTotal :=
  (isort msLeB (artistTotals df)).reverse

/-- `artist_totals.head(int(top_artists))`. -/
def artistTop (df : List Row) (top_artists : Nat) : List ArtistTotal :=
  (artistOrder df).take top_artists

/-- `df.groupby(["artist", "track", "uri"], dropna=False)["ms"].sum()`:
one row per distinct key, ordered ascending by the key. -/
def trackTotals (df : List Row) : List TrackTotal :=
  (isort tkeyLeB (dedupAcc [] (df.map (fun r => (r.artist, r.track, r.uri))))).map
    (fun k => { artist := k.1, track := k.2.1, uri := k.2.2, track_ms := sumKeyFor df k })

/-- The optional absolute floor: keep rows with `track_ms > min_track_total_ms`
when the threshold is set. -/
def flooredTrackTotals (df : List Row) (min_track_total_ms : Option Nat) :
    List TrackTotal :=
  match min_track_total_ms with
  | none => trackTotals df
  | some m => (trackTotals df).filter (fun t => m < t.track_ms)

/-- `track_totals.merge(artist_top[["artist", "artist_ms"]], on="artist",
how="inner")`: keep rows whose artist is selected, attach that artist's
total, preserve left-frame order. -/
def mergeTop (ts : List TrackTotal) (top : List ArtistTotal) : List MergedRow :=
  ts.filterMap (fun t =>
    (top.find? (fun a => a.artist == t.artist)).map (fun a =>
      { artist := t.artist, track := t.track, uri := t.uri,
        track_ms := t.track_ms, artist_ms := a.artist_ms }))

/-- Sort key of
`sort_values(by=["artist_ms", "track_ms"], ascending=[False, False], kind="mergesort")`. -/
def mergeLeB (x y : MergedRow) : Bool :=
  decide (y.artist_ms < x.artist_ms) ||
    (x.artist_ms == y.artist_ms && decide (y.track_ms ≤ x.track_ms))

/-- The merged frame after the stable descending/descending sort. -/
def sortedMerged (df : List Row) (top_artists : Nat)
    (min_track_total_ms : Option Nat) : List MergedRow :=
  isort mergeLeB (mergeTop (flooredTrackTotals df min_track_total_ms) (artistTop df top_artists))

/-- Number of same-artist rows of `l` with a strictly larger `track_ms`. -/
def countGt (t : MergedRow) (l : List MergedRow) : Nat :=
  l.countP (fun u => u.artist == t.artist && decide (t.track_ms < u.track_ms))

/-- Number of same-artist rows of `l` with an equal `track_ms`. -/
def countEq (t : MergedRow) (l : List MergedRow) : Nat :=
  l.countP (fun u => u.artist == t.artist && u.track_ms == t.track_ms)

/-- `groupby("artist")["track_ms"].rank(method="first", ascending=False)`:
walk the frame keeping the already-visited prefix, each row's rank being
one plus the same-artist rows with a larger total anywhere plus the
same-artist rows with an equal total earlier in the frame. -/
def rankGo (pre : List MergedRow) : List MergedRow → List RankedRow
  | [] => []
  | t :: rest =>
      { row := t, rank_in_artist := 1 + countGt t pre + countGt t rest + countEq t pre }
        :: rankGo (pre ++ [t]) rest

/-- Rank assignment over a whole frame. -/
def rankRows (l : List MergedRow) : List RankedRow := rankGo [] l

/-- The ranked merged frame of a pipeline run. -/
def rankedRows (df : List Row) (top_artists : Nat)
    (min_track_total_ms : Option Nat) : List RankedRow :=
  rankRows (sortedMerged df top_artists min_track_total_ms)

/-- `track_totals[track_totals["rank_in_artist"] <= int(tracks_per_artist)]`. -/
def keptRows (df : List Row) (top_artists tracks_per_artist : Nat)
    (min_track_total_ms : Option Nat) : List RankedRow :=
  (rankedRows df top_artists min_track_total_ms).filter
    (fun r => r.rank_in_artist ≤ tracks_per_artist)

/-- Sort key of the final
`sort_values(by=["artist_ms", "rank_in_artist"], ascending=[False, True], kind="mergesort")`. -/
def finalLeB (x y : RankedRow) : Bool :=
  decide (y.row.artist_ms < x.row.artist_ms) ||
    (x.row.artist_ms == y.row.artist_ms && decide (x.rank_in_artist ≤ y.rank_in_artist))

/-- The final ordered selection table (`ordered` in the source). -/
def orderedRows (df : List Row) (top_artists tracks_per_artist : Nat)
    (min_track_total_ms : Option Nat) : List RankedRow :=
  isort finalLeB (keptRows df top_artists tracks_per_artist min_track_total_ms)

/-- The URI-deduplication loop: walk the table, skip null URIs, keep the
first occurrence of each URI (`seen` is the guard set). -/
def dedupSeenRows (seen : List String) : List RankedRow → List String
  | [] => []
  | r :: rest =>
      match r.row.uri with
      | none => dedupSeenRows seen rest
      | some u => if u ∈ seen then dedupSeenRows seen rest
                  else u :: dedupSeenRows (u :: seen) rest

/-- The deduplicated URI sequence of a pipeline run. -/
def playlist_uris (df : List Row) (top_artists tracks_per_artist : Nat)
    (min_track_total_ms : Option Nat) : List String :=
  dedupSeenRows [] (orderedRows df top_artists tracks_per_artist min_track_total_ms)

/-- `_aggregate_and_order`: the final ordered table and the deduplicated
URI sequence. -/
def aggregate_and_order (df : List Row) (top_artists tracks_per_artist : Nat)
    (min_track_total_ms : Option Nat) : List RankedRow × List String :=
  (orderedRows df top_artists tracks_per_artist min_track_total_ms,
   playlist_uris df top_artists tracks_per_artist min_track_total_ms)

/-- The data path of `create_playlist` (steps 2, 2.5 and 3; loading, CSV
output and the Spotify client are external collaborators).  Errors carry
the source's message strings. -/
def create_playlist_core (events : List RawEvent)
    (year_start year_end : Option Int) (top_artists tracks_per_artist : Nat)
    (min_play_ms : Nat) (min_track_total_ms : Option Nat)
    (patterns : List String) (mode : String) :
    Except String (List RankedRow × List String) :=
  let df := filter_music_rows events min_play_ms year_start year_end
  if df.isEmpty then .error "No valid music rows after filtering."
  else
    match (if !patterns.isEmpty then apply_artist_patterns df patterns mode
           else .ok df) with
    | .error e => .error e
    | .ok df2 =>
        let res := aggregate_and_order df2 top_artists tracks_per_artist min_track_total_ms
        if res.2.isEmpty then .error "No valid Spotify track URIs to add."
        else .ok res

/-! ## Derived notions used in theorem statements -/

/-- `Except.ok`-ness as a boolean (for closed counterexample statements). -/
def exceptIsOk {ε α : Type} : Except ε α → Bool
  | .ok _ => true
  | .error _ => false

/-- The strict part of a boolean "less or equal" relation. -/
def strictOf {α : Type} (le : α → α → Bool) (x y : α) : Prop :=
  le x y = true ∧ le y x = false

/-- The `(artist, track, uri)` key of a track-totals row. -/
def TrackTotal.key (t : TrackTotal) : String × String × Option String :=
  (t.artist, t.track, t.uri)

/-- The `(artist, track, uri)` key of a merged row. -/
def MergedRow.key (m : MergedRow) : String × String × Option String :=
  (m.artist, m.track, m.uri)

/-- The pairwise relation produced by stably sorting a list whose elements
already stand in the (typically stricter) relation `s`: consecutive-in-order
elements are either strictly `le`-ordered, or `le`-equivalent and then still
in their original `s` order.  This is the general stability fact behind the
tie-break analyses. -/
def lexOf {α : Type} (le : α → α → Bool) (s : α → α → Prop) (x y : α) : Prop :=
  (le x y = true ∧ le y x = false) ∨ (le x y = true ∧ le y x = true ∧ s x y)

/-- Index of the first occurrence of `x` (length of the list when absent). -/
def firstIdx {α : Type} [DecidableEq α] (x : α) : List α → Nat
  | [] => 0
  | a :: l => if a = x then 0 else firstIdx x l + 1

/-! ## Concrete data for counterexamples and witnesses -/

/-- A well-formed music event whose timestamp is null. -/
def eNullTs : RawEvent :=
  { ts := none, ms_played := some 1000, track_name := some "T",
    artist_name := some "A", uri := none, episode_name := none,
    audiobook_title := none }

/-- A fully well-formed music event (non-null URI, generous play time). -/
def eGood : RawEvent :=
  { ts := some 2024, ms_played := some 40000, track_name := some "T",
    artist_name := some "A", uri := some "spotify:track:x",
    episode_name := none, audiobook_title := none }

/-- Filtered rows: artist "A" first in input, artist "B" second, equal
listen totals (100 each). -/
def rowA : Row :=
  { ts := none, ms := some 100, artist := "A", track := "T", uri := some "a" }

/-- See `rowA`. -/
def rowB : Row :=
  { ts := none, ms := some 100, artist := "B", track := "T", uri := some "b" }

/-- Filtered rows for the track-tie counterexample: one artist "A", track
"Z" seen first, track "B" seen second, equal totals (20000 each). -/
def rowZ : Row :=
  { ts := none, ms := some 20000, artist := "A", track := "Z", uri := some "z" }

/-- See `rowZ`. -/
def rowBtrack : Row :=
  { ts := none, ms := some 20000, artist := "A", track := "B", uri := some "b" }

/-! ## Lemmas about `isort` -/

theorem ordIns_perm {α : Type} (le : α → α → Bool) (a : α) (l : List α) :
    (ordIns le a l).Perm (a :: l) := by
  induction l with
  | nil => exact List.Perm.refl _
  | cons b t ih =>
    rw [ordIns]
    by_cases h : le a b = true
    · rw [if_pos h]
    · rw [if_neg h]
      exact (ih.cons b).trans (List.Perm.swap a b t)

theorem isort_perm {α : Type} (le : α → α → Bool) (l : List α) :
    (isort le l).Perm l := by
  induction l with
  | nil => exact List.Perm.refl _
  | cons a t ih => exact (ordIns_perm le a (isort le t)).trans (ih.cons a)

theorem mem_isort {α : Type} (le : α → α → Bool) (l : List α) (x : α) :
    x ∈ isort le l ↔ x ∈ l :=
  (isort_perm le l).mem_iff

theorem pairwise_ordIns {α : Type} (le : α → α → Bool)
    (htot : ∀ x y, le x y = true ∨ le y x = true)
    (htr : ∀ x y z, le x y = true → le y z = true → le x z = true)
    (a : α) (l : List α) (h : l.Pairwise (fun x y => le x y = true)) :
    (ordIns le a l).Pairwise (fun x y => le x y = true) := by
  induction l with
  | nil => simp [ordIns]
  | cons b t ih =>
    rw [List.pairwise_cons] at h
    rw [ordIns]
    by_cases hab : le a b = true
    · rw [if_pos hab]
      refine List.pairwise_cons.mpr ⟨?_, List.pairwise_cons.mpr h⟩
      intro c hc
      rcases List.mem_cons.mp hc with hcb | hct
      · exact hcb ▸ hab
      · exact htr a b c hab (h.1 c hct)
    · rw [if_neg hab]
      refine List.pairwise_cons.mpr ⟨?_, ih h.2⟩
      intro c hc
      rcases List.mem_cons.mp ((ordIns_perm le a t).mem_iff.mp hc) with hca | hct
      · cases htot a b with
        | inl h' => exact absurd h' hab
        | inr h' => exact hca ▸ h'
      · exact h.1 c hct

theorem sorted_isort {α : Type} (le : α → α → Bool)
    (htot : ∀ x y, le x y = true ∨ le y x = true)
    (htr : ∀ x y z, le x y = true → le y z = true → le x z = true)
    (l : List α) : (isort le l).Pairwise (fun x y => le x y = true) := by
  induction l with
  | nil => exact List.Pairwise.nil
  | cons a t ih => exact pairwise_ordIns le htot htr a (isort le t) ih

theorem filter_ordIns_eqv {α : Type} (le : α → α → Bool) (p : α → Bool)
    (a : α) (l : List α)
    (hpa : ∀ b ∈ l, p a = true → p b = true → le a b = true) :
    (ordIns le a l).filter p = if p a then a :: l.filter p else l.filter p := by
  induction l with
  | nil => simp [ordIns, List.filter_cons]
  | cons b t ih =>
    rw [ordIns]
    by_cases hab : le a b = true
    · rw [if_pos hab, List.filter_cons]
    · rw [if_neg hab]
      have ih' := ih (fun c hc h1 h2 => hpa c (List.mem_cons_of_mem b hc) h1 h2)
      cases hpb : p b with
      | true =>
        cases hpa' : p a with
        | true =>
          exact absurd (hpa b (List.mem_cons_self b t) hpa' hpb) hab
        | false =>
          simp [List.filter_cons, hpb, hpa', ih']
      | false =>
        simp [List.filter_cons, hpb, ih']

theorem filter_isort_eqv {α : Type} (le : α → α → Bool) (p : α → Bool)
    (hp : ∀ x y, p x = true → p y = true → le x y = true) (l : List α) :
    (isort le l).filter p = l.filter p := by
  induction l with
  | nil => rfl
  | cons a t ih =>
    rw [isort, filter_ordIns_eqv le p a (isort le t) (fun b _ h1 h2 => hp a b h1 h2),
      List.filter_cons]
    cases hpa : p a with
    | true => rw [if_pos rfl, if_pos rfl, ih]
    | false => rw [if_neg (by simp), if_neg (by simp), ih]

theorem ordIns_eq_cons {α : Type} (le : α → α → Bool) (a : α) (l : List α)
    (h : ∀ c ∈ l, le a c = true) : ordIns le a l = a :: l := by
  cases l with
  | nil => rfl
  | cons c t => rw [ordIns, if_pos (h c (List.mem_cons_self c t))]

theorem filter_ordIns_comm {α : Type} (le : α → α → Bool) (p : α → Bool)
    (htr : ∀ x y z, le x y = true → le y z = true → le x z = true)
    (a : α) (l : List α) (hs : l.Pairwise (fun x y => le x y = true)) :
    (ordIns le a l).filter p =
      if p a then ordIns le a (l.filter p) else l.filter p := by
  induction l with
  | nil =>
    cases hpa : p a with
    | true => simp [ordIns, List.filter_cons, hpa]
    | false => simp [ordIns, List.filter_cons, hpa]
  | cons b t ih =>
    rw [List.pairwise_cons] at hs
    rw [ordIns]
    by_cases hab : le a b = true
    · rw [if_pos hab, List.filter_cons]
      cases hpa : p a with
      | true =>
        rw [if_pos rfl, if_pos rfl]
        have : ∀ c ∈ (b :: t).filter p, le a c = true := by
          intro c hc
          rcases List.mem_cons.mp (List.mem_of_mem_filter hc) with hcb | hct
          · exact hcb ▸ hab
          · exact htr a b c hab (hs.1 c hct)
        rw [ordIns_eq_cons le a _ this]
      | false => rw [if_neg (by simp), if_neg (by simp)]
    · rw [if_neg hab]
      have ih' := ih hs.2
      cases hpb : p b with
      | true =>
        cases hpa : p a with
        | true =>
          simp [List.filter_cons, hpb, ih', hpa, ordIns, hab]
        | false =>
          simp [List.filter_cons, hpb, ih', hpa]
      | false =>
        simp [List.filter_cons, hpb, ih']

theorem filter_isort_comm {α : Type} (le : α → α → Bool) (p : α → Bool)
    (htot : ∀ x y, le x y = true ∨ le y x = true)
    (htr : ∀ x y z, le x y = true → le y z = true → le x z = true)
    (l : List α) : (isort le l).filter p = isort le (l.filter p) := by
  induction l with
  | nil => rfl
  | cons a t ih =>
    rw [isort, filter_ordIns_comm le p htr a (isort le t) (sorted_isort le htot htr t),
      List.filter_cons]
    cases hpa : p a with
    | true => rw [if_pos rfl, if_pos rfl, ih, isort]
    | false => rw [if_neg (by simp), if_neg (by simp), ih]

theorem pairwise_lex_ordIns {α : Type} (le : α → α → Bool) (s : α → α → Prop)
    (htot : ∀ x y, le x y = true ∨ le y x = true)
    (htr : ∀ x y z, le x y = true → le y z = true → le x z = true)
    (a : α) (l : List α)
    (hsort : l.Pairwise (fun x y => le x y = true))
    (hlex : l.Pairwise (lexOf le s))
    (hs : ∀ b ∈ l, s a b) :
    (ordIns le a l).Pairwise (lexOf le s) := by
  induction l with
  | nil => simp [ordIns]
  | cons b t ih =>
    rw [List.pairwise_cons] at hsort hlex
    rw [ordIns]
    by_cases hab : le a b = true
    · rw [if_pos hab]
      refine List.pairwise_cons.mpr ⟨?_, List.pairwise_cons.mpr hlex⟩
      intro c hc
      have hac : le a c = true := by
        rcases List.mem_cons.mp hc with hcb | hct
        · exact hcb ▸ hab
        · exact htr a b c hab (hsort.1 c hct)
      cases hca : le c a with
      | false => exact Or.inl ⟨hac, hca⟩
      | true => exact Or.inr ⟨hac, hca, hs c hc⟩
    · rw [if_neg hab]
      refine List.pairwise_cons.mpr
        ⟨?_, ih hsort.2 hlex.2 (fun c hc => hs c (List.mem_cons_of_mem b hc))⟩
      intro c hc
      rcases List.mem_cons.mp ((ordIns_perm le a t).mem_iff.mp hc) with hca | hct
      · subst hca
        cases htot c b with
        | inl h' => exact absurd h' hab
        | inr h' => exact Or.inl ⟨h', by simpa using hab⟩
      · exact hlex.1 c hct

theorem pairwise_lex_isort {α : Type} (le : α → α → Bool) (s : α → α → Prop)
    (htot : ∀ x y, le x y = true ∨ le y x = true)
    (htr : ∀ x y z, le x y = true → le y z = true → le x z = true)
    (l : List α) (hp : l.Pairwise s) :
    (isort le l).Pairwise (lexOf le s) := by
  induction l with
  | nil => exact List.Pairwise.nil
  | cons a t ih =>
    rw [List.pairwise_cons] at hp
    exact pairwise_lex_ordIns le s htot htr a (isort le t)
      (sorted_isort le htot htr t) (ih hp.2)
      (fun b hb => hp.1 b ((mem_isort le t b).mp hb))

/-! ## Lemmas about `dedupF` -/

theorem dedupF_cons {α : Type} [DecidableEq α] (a : α) (l : List α) :
    dedupF (a :: l) = a :: dedupF (l.filter (fun b => b ≠ a)) := by
  rw [dedupF]

theorem mem_dedupF {α : Type} [DecidableEq α] (l : List α) (x : α) :
    x ∈ dedupF l ↔ x ∈ l := by
  induction l using dedupF.induct with
  | case1 => simp [dedupF]
  | case2 a t ih =>
    rw [dedupF_cons, List.mem_cons, List.mem_cons, ih]
    constructor
    · rintro (h | h)
      · exact Or.inl h
      · exact Or.inr (List.mem_of_mem_filter h)
    · rintro (h | h)
      · exact Or.inl h
      · by_cases hxa : x = a
        · exact Or.inl hxa
        · exact Or.inr (List.mem_filter.mpr ⟨h, by simp [hxa]⟩)

theorem nodup_dedupF {α : Type} [DecidableEq α] (l : List α) :
    (dedupF l).Nodup := by
  induction l using dedupF.induct with
  | case1 => simp [dedupF]
  | case2 a t ih =>
    rw [dedupF_cons]
    refine List.Pairwise.cons ?_ ih
    intro b hb
    have := List.of_mem_filter ((mem_dedupF _ b).mp hb)
    simp at this
    exact fun h => this h.symm

theorem length_dedupF_le {α : Type} [DecidableEq α] (l : List α) :
    (dedupF l).length ≤ l.length := by
  induction l using dedupF.induct with
  | case1 => simp [dedupF]
  | case2 a t ih =>
    rw [dedupF_cons, List.length_cons, List.length_cons]
    exact Nat.succ_le_succ (ih.trans (List.length_filter_le _ _))

theorem dedupAcc_eq_dedupF {α : Type} [DecidableEq α] (l : List α) (seen : List α) :
    dedupAcc seen l = dedupF (l.filter (fun b => b ∉ seen)) := by
  induction l generalizing seen with
  | nil => simp [dedupAcc, dedupF]
  | cons a t ih =>
    rw [dedupAcc]
    by_cases ha : a ∈ seen
    · rw [if_pos ha, List.filter_cons, if_neg (by simp [ha]), ih]
    · have hcongr : (t.filter (fun b => b ∉ seen)).filter (fun b => b ≠ a)
          = t.filter (fun b => b ∉ a :: seen) := by
        rw [List.filter_filter]
        refine List.filter_congr fun b _ => ?_
        by_cases hb : b = a <;> by_cases hbs : b ∈ seen <;> simp [hb, hbs]
      rw [if_neg ha, List.filter_cons, if_pos (by simp [ha]), dedupF_cons,
        ih (a :: seen), hcongr]

theorem mem_dedupAcc_nil {α : Type} [DecidableEq α] (l : List α) (x : α) :
    x ∈ dedupAcc [] l ↔ x ∈ l := by
  rw [dedupAcc_eq_dedupF, mem_dedupF]
  simp

theorem nodup_dedupAcc_nil {α : Type} [DecidableEq α] (l : List α) :
    (dedupAcc [] l).Nodup := by
  rw [dedupAcc_eq_dedupF]
  exact nodup_dedupF _

/-! ## Claim C4: which events survive the event filter -/

/-- C4 (amended): an event survives `_filter_music_rows` iff it is not
flagged podcast/audiobook, has non-null artist and track, its
`ms_played` (0 when missing) is at least `min_play_ms`, and — whenever
either year bound is *truthy*, i.e. set to a nonzero year — its timestamp
is non-null with year within the truthy bounds.  (Amendment forced by the
counterexample: the source tests the bounds with Python truthiness
(`if year_start or year_end:` / `if year_start:`), so a bound that is set
to the integer 0 behaves as if it were unset.) -/
theorem C4_amended_filter_survival (df : List RawEvent) (min_play_ms : Nat)
    (ys ye : Option Int) (e : RawEvent) :
    e ∈ filterRaw df min_play_ms ys ye ↔
      e ∈ df ∧ e.episode_name = none ∧ e.audiobook_title = none ∧
      e.artist_name ≠ none ∧ e.track_name ≠ none ∧
      min_play_ms ≤ e.ms_played.getD 0 ∧
      ((pyTruthy ys = true ∨ pyTruthy ye = true) → e.ts ≠ none) ∧
      (pyTruthy ys = true → ys.getD 0 ≤ e.ts.getD 0) ∧
      (pyTruthy ye = true → e.ts.getD 0 ≤ ye.getD 0) := by
  unfold filterRaw
  by_cases hs' : pyTruthy ys = true <;> by_cases he' : pyTruthy ye = true <;>
    simp [hs', he', List.mem_filter, Option.isNone_iff_eq_none,
      Option.isSome_iff_ne_none, and_assoc] <;> tauto

/-- C4 counterexample: `year_start` is *set* (to the integer 0), the claim
therefore demands that an event with a null timestamp be dropped — but the
code keeps it, because Python's `if year_start:` is false for 0. -/
theorem C4_counterexample :
    eNullTs ∈ filterRaw [eNullTs] 0 (some 0) none ∧ eNullTs.ts = none := by
  refine ⟨?_, rfl⟩
  decide

/-- Witness for `C4_amended_filter_survival`: a concrete event surviving a
concrete filter run, with every hypothesis discharged by `decide`. -/
theorem C4_amended_witness :
    eNullTs ∈ filterRaw [eNullTs] 0 (some 0) none :=
  (C4_amended_filter_survival [eNullTs] 0 (some 0) none eNullTs).mpr
    ⟨by decide, by decide, by decide, by decide, by decide, by decide,
     fun h => by revert h; decide, fun h => by revert h; decide,
     fun h => by revert h; decide⟩

/-! ## Claim C6: pattern filter correctness -/

/-- C6: with a non-empty pattern list, `exclude` keeps exactly the rows
whose artist contains no pattern as a case-insensitive literal substring
and `include` keeps exactly the rows whose artist contains at least one;
an empty pattern list is a passthrough for every mode.  (Regex
metacharacters match literally: `_apply_artist_patterns` joins
`re.escape`d patterns, which is what `containsCI` embeds.) -/
theorem C6_pattern_filter (df : List Row) (patterns : List String) :
    (patterns ≠ [] →
      (∃ kept, apply_artist_patterns df patterns "exclude" = .ok kept ∧
        ∀ r, r ∈ kept ↔ r ∈ df ∧ ∀ p ∈ patterns, containsCI r.artist p = false) ∧
      (∃ kept, apply_artist_patterns df patterns "include" = .ok kept ∧
        ∀ r, r ∈ kept ↔ r ∈ df ∧ ∃ p ∈ patterns, containsCI r.artist p = true)) ∧
    (∀ mode, apply_artist_patterns df [] mode = .ok df) := by
  constructor
  · intro hne
    have hempty : patterns.isEmpty = false := by
      cases patterns with
      | nil => exact absurd rfl hne
      | cons a t => rfl
    constructor
    · refine ⟨df.filter (fun r => !(patterns.any (fun p => containsCI r.artist p))),
        ?_, ?_⟩
      · unfold apply_artist_patterns
        rw [if_neg (by simp [hempty]), if_neg (by decide), if_pos (by decide)]
      · intro r
        simp [List.mem_filter, List.any_eq_false]
    · refine ⟨df.filter (fun r => patterns.any (fun p => containsCI r.artist p)),
        ?_, ?_⟩
      · unfold apply_artist_patterns
        rw [if_neg (by simp [hempty]), if_pos (by decide)]
      · intro r
        simp [List.mem_filter, List.any_eq_true]
  · intro mode
    rfl

/-- Witness for `C6_pattern_filter` at a concrete frame and pattern list:
`exclude` with pattern "b" keeps `rowA` (artist "A") and drops `rowB`
(artist "B", which contains "b" case-insensitively). -/
theorem C6_witness :
    ∃ kept, apply_artist_patterns [rowA, rowB] ["b"] "exclude" = .ok kept ∧
      (rowA ∈ kept ∧ rowB ∉ kept) := by
  obtain ⟨kept, hk, hmem⟩ := ((C6_pattern_filter [rowA, rowB] ["b"]).1 (by decide)).1
  refine ⟨kept, hk, ?_, ?_⟩
  · exact (hmem rowA).mpr ⟨by decide, by decide⟩
  · intro hmemB
    have := ((hmem rowB).mp hmemB).2 "b" (by decide)
    revert this
    decide

/-! ## Claim C3: invalid mode handling -/

/-- C3 counterexample: with an *empty* pattern list and the unrecognized
mode "bogus", the pipeline runs to a successful result — no configuration
error is raised at all, for this input, contradicting "for every pattern
list".  (The run also shows the error could not have preceded the data
stages: the data was read and filtered to produce the `ok` result.) -/
theorem C3_counterexample :
    exceptIsOk (create_playlist_core [eGood] none none 1 1 0 none [] "bogus") = true := by
  decide

/-- C3 (amended): with a *non-empty* pattern list, a mode outside
`{"exclude", "include"}` makes the pipeline fail with the configuration
error — but the error is raised at the pattern-filter stage, i.e. after
event data has been read and filtered (when filtering leaves no rows, the
no-data error fires instead, which is why non-emptiness of the filtered
frame is assumed); it is still raised before aggregation. -/
theorem C3_amended_mode_error (events : List RawEvent) (ys ye : Option Int)
    (ta tpa mp : Nat) (floor : Option Nat) (patterns : List String)
    (mode : String) (hne : patterns ≠ []) (hni : mode ≠ "include")
    (hnx : mode ≠ "exclude")
    (hdata : filter_music_rows events mp ys ye ≠ []) :
    create_playlist_core events ys ye ta tpa mp floor patterns mode =
      .error "artists_filter_mode must be 'exclude' or 'include'." := by
  have hempty : (filter_music_rows events mp ys ye).isEmpty = false := by
    cases h : filter_music_rows events mp ys ye with
    | nil => exact absurd h hdata
    | cons a t => rfl
  have hpat : patterns.isEmpty = false := by
    cases patterns with
    | nil => exact absurd rfl hne
    | cons a t => rfl
  have happ : ∀ df' : List Row, apply_artist_patterns df' patterns mode =
      .error "artists_filter_mode must be 'exclude' or 'include'." := by
    intro df'
    unfold apply_artist_patterns
    rw [if_neg (by simp [hpat]), if_neg (by simp [hni]), if_neg (by simp [hnx])]
  unfold create_playlist_core
  rw [if_neg (by simp [hempty]), if_pos (by simp [hpat]), happ]

/-- Witness for `C3_amended_mode_error` at concrete inputs. -/
theorem C3_amended_witness :
    create_playlist_core [eGood] none none 1 1 0 none ["x"] "bogus" =
      .error "artists_filter_mode must be 'exclude' or 'include'." :=
  C3_amended_mode_error [eGood] none none 1 1 0 none ["x"] "bogus"
    (by decide) (by decide) (by decide) (by decide)

/-! ## Membership plumbing through the aggregation stages -/

theorem rankGo_row_mem (pre l : List MergedRow) (u : RankedRow)
    (h : u ∈ rankGo pre l) : u.row ∈ l := by
  induction l generalizing pre with
  | nil => cases h
  | cons t rest ih =>
    rw [rankGo] at h
    rcases List.mem_cons.mp h with h' | h'
    · rw [h']
      exact List.mem_cons_self t rest
    · exact List.mem_cons_of_mem t (ih (pre ++ [t]) h')

theorem mem_mergeTop (ts : List TrackTotal) (top : List ArtistTotal)
    (x : MergedRow) :
    x ∈ mergeTop ts top ↔ ∃ t ∈ ts, ∃ a,
      top.find? (fun a' => a'.artist == t.artist) = some a ∧
      x = { artist := t.artist, track := t.track, uri := t.uri,
            track_ms := t.track_ms, artist_ms := a.artist_ms } := by
  rw [mergeTop, List.mem_filterMap]
  constructor
  · rintro ⟨t, ht, hf⟩
    rcases hfind : top.find? (fun a' => a'.artist == t.artist) with _ | a
    · rw [hfind] at hf
      cases hf
    · rw [hfind] at hf
      simp only [Option.map_some'] at hf
      exact ⟨t, ht, a, hfind, ((Option.some.injEq _ _).mp hf).symm⟩
  · rintro ⟨t, ht, a, hfind, hx⟩
    refine ⟨t, ht, ?_⟩
    rw [hfind, Option.map_some', hx]

/-- Any row of the final ordered table comes from a floored track total
with the same `track_ms` (and from a selected artist). -/
theorem orderedRows_from_floored (df : List Row) (ta tpa : Nat)
    (floor : Option Nat) (r : RankedRow)
    (hr : r ∈ orderedRows df ta tpa floor) :
    ∃ t ∈ flooredTrackTotals df floor,
      t.artist = r.row.artist ∧ t.track_ms = r.row.track_ms := by
  have h1 : r ∈ keptRows df ta tpa floor :=
    (mem_isort _ _ r).mp hr
  have h2 : r ∈ rankedRows df ta floor := List.mem_of_mem_filter h1
  have h3 : r.row ∈ sortedMerged df ta floor := rankGo_row_mem [] _ r h2
  have h4 : r.row ∈ mergeTop (flooredTrackTotals df floor) (artistTop df ta) :=
    (mem_isort _ _ r.row).mp h3
  rcases (mem_mergeTop _ _ r.row).mp h4 with ⟨t, ht, a, _, hx⟩
  exact ⟨t, ht, by rw [hx], by rw [hx]⟩

/-! ## Claim C5: the absolute per-track floor -/

/-- C5: when `min_track_total_ms` is set to `m`, the floor is the strict
filter `track_ms > m` applied to the track totals *before* the restriction
to selected artists and before ranking (third conjunct is that stage
definitionally), every row of the final table satisfies `track_ms > m`
(first conjunct), and an unset floor excludes nothing (second conjunct). -/
theorem C5_floor (df : List Row) (ta tpa : Nat) (m : Nat) :
    (∀ r ∈ orderedRows df ta tpa (some m), m < r.row.track_ms) ∧
    flooredTrackTotals df none = trackTotals df ∧
    flooredTrackTotals df (some m) =
      (trackTotals df).filter (fun t => m < t.track_ms) := by
  refine ⟨?_, rfl, rfl⟩
  intro r hr
  rcases orderedRows_from_floored df ta tpa (some m) r hr with ⟨t, ht, _, hms⟩
  have ht' : t ∈ (trackTotals df).filter (fun u => decide (m < u.track_ms)) := ht
  have := List.of_mem_filter ht'
  rw [decide_eq_true_eq] at this
  exact hms ▸ this

/-- Witness for `C5_floor`: on a concrete run with floor 10000, the single
surviving table row has `track_ms = 20000 > 10000`. -/
theorem C5_witness :
    10000 <
      (RankedRow.mk (MergedRow.mk "A" "B" (some "b") 20000 40000) 1).row.track_ms :=
  (C5_floor [rowZ, rowBtrack] 1 1 10000).1 _ (by decide)

/-! ## Claim C7: URI deduplication -/

theorem dedupAcc_nil {α : Type} [DecidableEq α] (l : List α) :
    dedupAcc [] l = dedupF l := by
  rw [dedupAcc_eq_dedupF]
  congr 1
  refine (List.filter_congr fun b _ => ?_).trans (List.filter_true l)
  simp

theorem dedupSeenRows_eq (seen : List String) (l : List RankedRow) :
    dedupSeenRows seen l = dedupAcc seen (l.filterMap (fun r => r.row.uri)) := by
  induction l generalizing seen with
  | nil => rfl
  | cons r rest ih =>
    cases huri : r.row.uri with
    | none =>
      simp only [dedupSeenRows, huri, List.filterMap_cons]
      exact ih seen
    | some u =>
      simp only [dedupSeenRows, huri, List.filterMap_cons]
      by_cases hu : u ∈ seen
      · rw [if_pos hu, dedupAcc, if_pos hu]
        exact ih seen
      · rw [if_neg hu, dedupAcc, if_neg hu, ih (u :: seen)]

theorem firstIdx_cons_self {α : Type} [DecidableEq α] (x : α) (l : List α) :
    firstIdx x (x :: l) = 0 := by
  simp [firstIdx]

theorem firstIdx_cons_ne {α : Type} [DecidableEq α] (x a : α) (l : List α)
    (h : ¬ a = x) : firstIdx x (a :: l) = firstIdx x l + 1 := by
  simp [firstIdx, h]

theorem firstIdx_filter_lt {α : Type} [DecidableEq α] (a b c : α) (t : List α)
    (hb : b ≠ a) (hc : c ≠ a)
    (h : firstIdx b (t.filter (fun x => x ≠ a)) <
      firstIdx c (t.filter (fun x => x ≠ a))) :
    firstIdx b t < firstIdx c t := by
  induction t with
  | nil => exact absurd h (by simp [firstIdx])
  | cons d t' ih =>
    by_cases hd : d = a
    · have hdb : ¬ d = b := fun hh => hb (hh ▸ hd)
      have hdc : ¬ d = c := fun hh => hc (hh ▸ hd)
      rw [List.filter_cons, if_neg (by simp [hd])] at h
      rw [firstIdx_cons_ne b d t' hdb, firstIdx_cons_ne c d t' hdc]
      exact Nat.succ_lt_succ (ih h)
    · rw [List.filter_cons, if_pos (by simp [hd])] at h
      by_cases hdb : d = b
      · subst hdb
        have hdc : ¬ d = c := by
          intro hh
          subst hh
          exact Nat.lt_irrefl _ h
        rw [firstIdx_cons_self d t', firstIdx_cons_ne c d t' hdc]
        exact Nat.succ_pos _
      · by_cases hdc : d = c
        · subst hdc
          rw [firstIdx_cons_self d _] at h
          exact absurd h (Nat.not_lt_zero _)
        · rw [firstIdx_cons_ne b d _ hdb, firstIdx_cons_ne c d _ hdc] at h
          rw [firstIdx_cons_ne b d t' hdb, firstIdx_cons_ne c d t' hdc]
          exact Nat.succ_lt_succ (ih (Nat.lt_of_succ_lt_succ h))

theorem pairwise_firstIdx_dedupF {α : Type} [DecidableEq α] (l : List α) :
    (dedupF l).Pairwise (fun x y => firstIdx x l < firstIdx y l) := by
  induction l using dedupF.induct with
  | case1 => simp [dedupF]
  | case2 a t ih =>
    rw [dedupF_cons]
    refine List.Pairwise.cons ?_ ?_
    · intro b hb
      have hbne : b ≠ a := by
        have := List.of_mem_filter ((mem_dedupF _ b).mp hb)
        simpa using this
      rw [firstIdx_cons_self a t, firstIdx_cons_ne b a t (fun hh => hbne hh.symm)]
      exact Nat.succ_pos _
    · refine List.Pairwise.imp_of_mem ?_ ih
      intro x y hx hy hxy
      have hxne : x ≠ a := by
        have := List.of_mem_filter ((mem_dedupF _ x).mp hx)
        simpa using this
      have hyne : y ≠ a := by
        have := List.of_mem_filter ((mem_dedupF _ y).mp hy)
        simpa using this
      rw [firstIdx_cons_ne x a t (fun hh => hxne hh.symm),
        firstIdx_cons_ne y a t (fun hh => hyne hh.symm)]
      exact Nat.succ_lt_succ (firstIdx_filter_lt a x y t hxne hyne hxy)

/-- C7: the URI sequence of a run contains exactly the non-null URIs of
the final table (first conjunct), each exactly once (second and fourth
conjuncts), ordered by the position of each URI's first occurrence in the
table walk (third conjunct) — rows sharing a URI are coalesced into the
first occurrence regardless of their artist/track text, which the
statement never consults. -/
theorem C7_dedup (df : List Row) (ta tpa : Nat) (floor : Option Nat) :
    (∀ x, x ∈ playlist_uris df ta tpa floor ↔
      ∃ r ∈ orderedRows df ta tpa floor, r.row.uri = some x) ∧
    (playlist_uris df ta tpa floor).Nodup ∧
    (playlist_uris df ta tpa floor).Pairwise (fun x y =>
      firstIdx x ((orderedRows df ta tpa floor).filterMap (fun r => r.row.uri)) <
      firstIdx y ((orderedRows df ta tpa floor).filterMap (fun r => r.row.uri))) ∧
    (∀ x ∈ (orderedRows df ta tpa floor).filterMap (fun r => r.row.uri),
      (playlist_uris df ta tpa floor).count x = 1) := by
  have hU : playlist_uris df ta tpa floor =
      dedupF ((orderedRows df ta tpa floor).filterMap (fun r => r.row.uri)) := by
    rw [playlist_uris, dedupSeenRows_eq, dedupAcc_nil]
  refine ⟨?_, ?_, ?_, ?_⟩
  · intro x
    rw [hU, mem_dedupF, List.mem_filterMap]
  · rw [hU]
    exact nodup_dedupF _
  · rw [hU]
    exact pairwise_firstIdx_dedupF _
  · intro x hx
    have h1 : x ∈ playlist_uris df ta tpa floor := by
      rw [hU, mem_dedupF]
      exact hx
    have h2 : (playlist_uris df ta tpa floor).count x ≤ 1 :=
      List.nodup_iff_count_le_one.mp (by rw [hU]; exact nodup_dedupF _) x
    have h3 : 0 < (playlist_uris df ta tpa floor).count x :=
      List.count_pos_iff.mpr h1
    omega

/-- Witness for `C7_dedup` on a concrete run: URI "z" appears in the
table and exactly once in the output sequence. -/
theorem C7_witness :
    ("z" ∈ playlist_uris [rowZ, rowBtrack] 1 2 none ↔
      ∃ r ∈ orderedRows [rowZ, rowBtrack] 1 2 none, r.row.uri = some "z") ∧
    (playlist_uris [rowZ, rowBtrack] 1 2 none).count "z" = 1 :=
  ⟨(C7_dedup [rowZ, rowBtrack] 1 2 none).1 "z",
   (C7_dedup [rowZ, rowBtrack] 1 2 none).2.2.2 "z" (by decide)⟩

/-! ## Claim C8: the final ordering -/

theorem finalLeB_total (x y : RankedRow) :
    finalLeB x y = true ∨ finalLeB y x = true := by
  unfold finalLeB
  rcases Nat.lt_trichotomy x.row.artist_ms y.row.artist_ms with h | h | h
  · right
    simp [h]
  · rcases Nat.le_total x.rank_in_artist y.rank_in_artist with h' | h'
    · left
      simp [h, h']
    · right
      simp [h.symm, h']
  · left
    simp [h]

theorem finalLeB_trans (x y z : RankedRow) (h1 : finalLeB x y = true)
    (h2 : finalLeB y z = true) : finalLeB x z = true := by
  unfold finalLeB at h1 h2 ⊢
  simp only [Bool.or_eq_true, Bool.and_eq_true, decide_eq_true_eq,
    beq_iff_eq] at h1 h2 ⊢
  omega

/-- C8: the final table is a permutation of the rank-filtered rows
(stable sort sorts, nothing added or dropped), it is ordered by
`artist_ms` descending then `rank_in_artist` ascending, and rows with
equal `(artist_ms, rank_in_artist)` keys appear in exactly the relative
order they had before the final sort (the filter by any fixed key value
is unchanged — stability). -/
theorem C8_final_sort (df : List Row) (ta tpa : Nat) (floor : Option Nat) :
    (orderedRows df ta tpa floor).Perm (keptRows df ta tpa floor) ∧
    (orderedRows df ta tpa floor).Pairwise (fun x y =>
      y.row.artist_ms < x.row.artist_ms ∨
      (x.row.artist_ms = y.row.artist_ms ∧
        x.rank_in_artist ≤ y.rank_in_artist)) ∧
    (∀ A R : Nat, (orderedRows df ta tpa floor).filter
        (fun r => r.row.artist_ms == A && r.rank_in_artist == R) =
      (keptRows df ta tpa floor).filter
        (fun r => r.row.artist_ms == A && r.rank_in_artist == R)) := by
  refine ⟨isort_perm _ _, ?_, ?_⟩
  · refine (sorted_isort finalLeB finalLeB_total finalLeB_trans _).imp ?_
    intro a b h
    unfold finalLeB at h
    simp only [Bool.or_eq_true, Bool.and_eq_true, decide_eq_true_eq,
      beq_iff_eq] at h
    tauto
  · intro A R
    refine filter_isort_eqv finalLeB _ ?_ _
    intro x y hx hy
    simp only [Bool.and_eq_true, beq_iff_eq] at hx hy
    unfold finalLeB
    simp [hx.1, hx.2, hy.1, hy.2]

/-! ## Code-point order lemmas -/

theorem charListLt_irrefl (l : List Char) : charListLt l l = false := by
  induction l with
  | nil => rfl
  | cons a s ih => simp [charListLt, Nat.lt_irrefl, ih]

theorem charListLt_asymm (l1 l2 : List Char) (h : charListLt l1 l2 = true) :
    charListLt l2 l1 = false := by
  induction l1 generalizing l2 with
  | nil =>
    cases l2 with
    | nil => exact absurd h (by simp [charListLt])
    | cons b t => rfl
  | cons a s ih =>
    cases l2 with
    | nil => exact absurd h (by simp [charListLt])
    | cons b t =>
      simp only [charListLt, Bool.or_eq_true, Bool.and_eq_true,
        decide_eq_true_eq, beq_iff_eq] at h
      rcases h with h | ⟨rfl, h⟩
      · have hba : ¬ b.toNat < a.toNat := Nat.lt_asymm h
        have hne : ¬ b = a := fun hh => absurd h (by rw [hh]; exact Nat.lt_irrefl _)
        simp [charListLt, hba, hne]
      · simp [charListLt, Nat.lt_irrefl, ih t h]

theorem charListLt_trans (l1 l2 l3 : List Char)
    (h1 : charListLt l1 l2 = true) (h2 : charListLt l2 l3 = true) :
    charListLt l1 l3 = true := by
  induction l1 generalizing l2 l3 with
  | nil =>
    cases l3 with
    | nil =>
      cases l2 with
      | nil => exact absurd h1 (by simp [charListLt])
      | cons b t => exact absurd h2 (by simp [charListLt])
    | cons c u => simp [charListLt]
  | cons a s ih =>
    cases l2 with
    | nil => exact absurd h1 (by simp [charListLt])
    | cons b t =>
      cases l3 with
      | nil => exact absurd h2 (by simp [charListLt])
      | cons c u =>
        simp only [charListLt, Bool.or_eq_true, Bool.and_eq_true,
          decide_eq_true_eq, beq_iff_eq] at h1 h2 ⊢
        rcases h1 with h1 | ⟨rfl, h1⟩ <;> rcases h2 with h2 | ⟨rfl, h2⟩
        · exact Or.inl (Nat.lt_trans h1 h2)
        · exact Or.inl h1
        · exact Or.inl h2
        · exact Or.inr ⟨rfl, ih t u h1 h2⟩

theorem charListLt_conn (l1 l2 : List Char)
    (h1 : charListLt l1 l2 = false) (h2 : charListLt l2 l1 = false) :
    l1 = l2 := by
  induction l1 generalizing l2 with
  | nil =>
    cases l2 with
    | nil => rfl
    | cons b t => exact absurd h1 (by simp [charListLt])
  | cons a s ih =>
    cases l2 with
    | nil => exact absurd h2 (by simp [charListLt])
    | cons b t =>
      simp only [charListLt, Bool.or_eq_false_iff, Bool.and_eq_false_iff,
        decide_eq_false_iff_not, beq_eq_false_iff_ne] at h1 h2
      have hab : a = b := by
        have h3 : a.toNat = b.toNat :=
          Nat.le_antisymm (Nat.not_lt.mp h2.1) (Nat.not_lt.mp h1.1)
        have h4 := congrArg Char.ofNat h3
        rwa [Char.ofNat_toNat, Char.ofNat_toNat] at h4
      subst hab
      rcases h1.2 with h1' | h1'
      · exact absurd rfl h1'
      · rcases h2.2 with h2' | h2'
        · exact absurd rfl h2'
        · rw [ih t h1' h2']

theorem strLeB_total (a b : String) : strLeB a b = true ∨ strLeB b a = true := by
  unfold strLeB
  cases h : charListLt b.data a.data with
  | false => left; rfl
  | true => right; rw [charListLt_asymm _ _ h]; rfl

theorem strLeB_trans (a b c : String) (h1 : strLeB a b = true)
    (h2 : strLeB b c = true) : strLeB a c = true := by
  unfold strLeB at h1 h2 ⊢
  cases hca : charListLt c.data a.data with
  | false => rfl
  | true =>
    exfalso
    cases hcb : charListLt c.data b.data with
    | true =>
      rw [hcb] at h2
      exact Bool.noConfusion h2
    | false =>
      cases hbc : charListLt b.data c.data with
      | true =>
        rw [charListLt_trans _ _ _ hbc hca] at h1
        exact Bool.noConfusion h1
      | false =>
        have heq : b.data = c.data := charListLt_conn _ _ hbc hcb
        have h3 : charListLt b.data a.data = true := by rw [heq]; exact hca
        rw [h3] at h1
        exact Bool.noConfusion h1

theorem strLeB_of_ne (a b : String) (hle : strLeB a b = true) (hne : a ≠ b) :
    strLtB a b = true := by
  unfold strLeB at hle
  unfold strLtB
  cases h : charListLt a.data b.data with
  | true => rfl
  | false =>
    exfalso
    cases h2 : charListLt b.data a.data with
    | true =>
      rw [h2] at hle
      exact Bool.noConfusion hle
    | false =>
      have h3 : a.data = b.data := charListLt_conn _ _ h h2
      exact hne (by cases a; cases b; exact congrArg String.mk h3)

/-! ## Claim C1: artist ordering -/

theorem msLeB_total (x y : ArtistTotal) : msLeB x y = true ∨ msLeB y x = true := by
  unfold msLeB
  rcases Nat.le_total x.artist_ms y.artist_ms with h | h
  · left
    simpa using h
  · right
    simpa using h

theorem msLeB_trans (x y z : ArtistTotal) (h1 : msLeB x y = true)
    (h2 : msLeB y z = true) : msLeB x z = true := by
  unfold msLeB at h1 h2 ⊢
  simp only [decide_eq_true_eq] at h1 h2 ⊢
  omega

/-- The artist-totals frame lists artists in strictly increasing name
order (distinct keys, sorted grouping). -/
theorem artistTotals_pairwise_name (df : List Row) :
    (artistTotals df).Pairwise (fun x y => strLtB x.artist y.artist = true) := by
  unfold artistTotals
  rw [List.pairwise_map]
  have hsorted := sorted_isort strLeB strLeB_total strLeB_trans
    (dedupAcc [] (df.map Row.artist))
  have hnodup : (isort strLeB (dedupAcc [] (df.map Row.artist))).Nodup :=
    ((isort_perm strLeB _).nodup_iff).mpr (nodup_dedupAcc_nil _)
  refine (hsorted.and hnodup).imp ?_
  intro a b h
  exact strLeB_of_ne a b h.1 h.2

/-- C1 (amended): `artistTop` keeps the first `top_artists` entries of the
artist ordering; that ordering is a permutation of the artist totals,
sorted by `total_ms` descending with ties broken by *descending artist
name* — an artifact of the name-sorted grouping followed by a descending
sort implemented as a reversed stable ascending sort.  First appearance in
the input stream plays no role.  (Amendment forced by the counterexample:
the tie-break is by name, not by input order.) -/
theorem C1_amended_artist_order (df : List Row) (ta : Nat) :
    artistTop df ta = (artistOrder df).take ta ∧
    (artistOrder df).Perm (artistTotals df) ∧
    (artistOrder df).Pairwise (fun x y =>
      y.artist_ms < x.artist_ms ∨
      (x.artist_ms = y.artist_ms ∧ strLtB y.artist x.artist = true)) := by
  refine ⟨rfl, (List.reverse_perm _).trans (isort_perm _ _), ?_⟩
  unfold artistOrder
  rw [List.pairwise_reverse]
  have hlex := pairwise_lex_isort msLeB
    (fun x y => strLtB x.artist y.artist = true)
    msLeB_total msLeB_trans (artistTotals df) (artistTotals_pairwise_name df)
  refine hlex.imp ?_
  intro a b h
  rcases h with ⟨h1, h2⟩ | ⟨h1, h2, h3⟩
  · left
    unfold msLeB at h1 h2
    simp only [decide_eq_true_eq] at h1
    simp only [decide_eq_false_iff_not] at h2
    omega
  · right
    unfold msLeB at h1 h2
    simp only [decide_eq_true_eq] at h1 h2
    exact ⟨Nat.le_antisymm h2 h1, h3⟩

/-- C1 counterexample: two artists tie at total 100; "A"'s first surviving
event precedes "B"'s in the filtered input (second conjunct), so the claim
ranks "A" first — but the code ranks "B" first (first conjunct): the
grouping sorts the tied artists by name and the reversed descending sort
leaves them in descending name order. -/
theorem C1_counterexample :
    artistTop [rowA, rowB] 2 =
      [ArtistTotal.mk "B" 100, ArtistTotal.mk "A" 100] ∧
    [rowA, rowB].map Row.artist = ["A", "B"] := by
  refine ⟨?_, rfl⟩
  decide

/-! ## Order lemmas for the group keys and the merge sort key -/

theorem strLtB_irrefl (a : String) : strLtB a a = false :=
  charListLt_irrefl a.data

theorem strLtB_asymm (a b : String) (h : strLtB a b = true) :
    strLtB b a = false :=
  charListLt_asymm _ _ h

theorem strLtB_trans (a b c : String) (h1 : strLtB a b = true)
    (h2 : strLtB b c = true) : strLtB a c = true :=
  charListLt_trans _ _ _ h1 h2

theorem strLtB_conn (a b : String) (h1 : strLtB a b = false)
    (h2 : strLtB b a = false) : a = b := by
  have h3 : a.data = b.data := charListLt_conn _ _ h1 h2
  cases a
  cases b
  exact congrArg String.mk h3

theorem strLtB_ne (a b : String) (h : strLtB a b = true) : a ≠ b := by
  intro hh
  rw [hh, strLtB_irrefl] at h
  exact Bool.noConfusion h

theorem strLeB_antisymm (a b : String) (h1 : strLeB a b = true)
    (h2 : strLeB b a = true) : a = b := by
  unfold strLeB at h1 h2
  refine strLtB_conn a b ?_ ?_
  · cases h : charListLt a.data b.data with
    | false => exact h
    | true =>
      rw [h] at h2
      exact Bool.noConfusion h2
  · cases h : charListLt b.data a.data with
    | false => exact h
    | true =>
      rw [h] at h1
      exact Bool.noConfusion h1

theorem optLeB_total (u v : Option String) :
    optLeB u v = true ∨ optLeB v u = true := by
  cases u with
  | none =>
    cases v with
    | none => exact Or.inl rfl
    | some b => exact Or.inr rfl
  | some a =>
    cases v with
    | none => exact Or.inl rfl
    | some b => exact strLeB_total a b

theorem optLeB_trans (u v w : Option String) (h1 : optLeB u v = true)
    (h2 : optLeB v w = true) : optLeB u w = true := by
  cases u with
  | none =>
    cases v with
    | none => exact h2
    | some b => exact absurd h1 (by simp [optLeB])
  | some a =>
    cases w with
    | none => rfl
    | some c =>
      cases v with
      | none => exact absurd h2 (by simp [optLeB])
      | some b => exact strLeB_trans a b c h1 h2

theorem optLeB_antisymm (u v : Option String) (h1 : optLeB u v = true)
    (h2 : optLeB v u = true) : u = v := by
  cases u with
  | none =>
    cases v with
    | none => rfl
    | some b => exact absurd h1 (by simp [optLeB])
  | some a =>
    cases v with
    | none => exact absurd h2 (by simp [optLeB])
    | some b => exact congrArg some (strLeB_antisymm a b h1 h2)

theorem tkeyLeB_total (x y : String × String × Option String) :
    tkeyLeB x y = true ∨ tkeyLeB y x = true := by
  unfold tkeyLeB
  cases h1 : strLtB x.1 y.1 with
  | true => exact Or.inl rfl
  | false =>
    cases h2 : strLtB y.1 x.1 with
    | true => exact Or.inr rfl
    | false =>
      have e1 : x.1 = y.1 := strLtB_conn _ _ h1 h2
      have b1 : (x.1 == y.1) = true := by rw [e1]; exact beq_self_eq_true _
      have b1' : (y.1 == x.1) = true := by rw [e1]; exact beq_self_eq_true _
      cases h3 : strLtB x.2.1 y.2.1 with
      | true => exact Or.inl (by simp [b1])
      | false =>
        cases h4 : strLtB y.2.1 x.2.1 with
        | true => exact Or.inr (by simp [b1'])
        | false =>
          have e2 : x.2.1 = y.2.1 := strLtB_conn _ _ h3 h4
          have b2 : (x.2.1 == y.2.1) = true := by rw [e2]; exact beq_self_eq_true _
          have b2' : (y.2.1 == x.2.1) = true := by rw [e2]; exact beq_self_eq_true _
          rcases optLeB_total x.2.2 y.2.2 with h5 | h5
          · exact Or.inl (by simp [b1, b2, h5])
          · exact Or.inr (by simp [b1', b2', h5])

theorem tkeyLeB_trans (x y z : String × String × Option String)
    (h1 : tkeyLeB x y = true) (h2 : tkeyLeB y z = true) :
    tkeyLeB x z = true := by
  unfold tkeyLeB at h1 h2 ⊢
  simp only [Bool.or_eq_true, Bool.and_eq_true, beq_iff_eq] at h1 h2 ⊢
  rcases h1 with h1 | ⟨e1, h1⟩
  · rcases h2 with h2 | ⟨e2, h2⟩
    · exact Or.inl (strLtB_trans _ _ _ h1 h2)
    · exact Or.inl (e2 ▸ h1)
  · rcases h2 with h2 | ⟨e2, h2⟩
    · exact Or.inl (e1 ▸ h2)
    · refine Or.inr ⟨e1.trans e2, ?_⟩
      rcases h1 with h1 | ⟨f1, h1⟩
      · rcases h2 with h2 | ⟨f2, h2⟩
        · exact Or.inl (strLtB_trans _ _ _ h1 h2)
        · exact Or.inl (f2 ▸ h1)
      · rcases h2 with h2 | ⟨f2, h2⟩
        · exact Or.inl (f1 ▸ h2)
        · exact Or.inr ⟨f1.trans f2, optLeB_trans _ _ _ h1 h2⟩

theorem tkeyLeB_antisymm (x y : String × String × Option String)
    (h1 : tkeyLeB x y = true) (h2 : tkeyLeB y x = true) : x = y := by
  unfold tkeyLeB at h1 h2
  simp only [Bool.or_eq_true, Bool.and_eq_true, beq_iff_eq] at h1 h2
  rcases h1 with h1 | ⟨e1, h1⟩
  · rcases h2 with h2 | ⟨e2, h2⟩
    · rw [strLtB_asymm _ _ h1] at h2
      exact Bool.noConfusion h2
    · exact absurd e2.symm (strLtB_ne _ _ h1)
  · rcases h2 with h2 | ⟨e2, h2⟩
    · exact absurd e1.symm (strLtB_ne _ _ h2)
    · rcases h1 with h1 | ⟨f1, h1⟩
      · rcases h2 with h2 | ⟨f2, h2⟩
        · rw [strLtB_asymm _ _ h1] at h2
          exact Bool.noConfusion h2
        · exact absurd f2.symm (strLtB_ne _ _ h1)
      · rcases h2 with h2 | ⟨f2, h2⟩
        · exact absurd f1.symm (strLtB_ne _ _ h2)
        · have e3 : x.2.2 = y.2.2 := optLeB_antisymm _ _ h1 h2
          exact Prod.ext e1 (Prod.ext f1 e3)

theorem mergeLeB_total (x y : MergedRow) :
    mergeLeB x y = true ∨ mergeLeB y x = true := by
  unfold mergeLeB
  rcases Nat.lt_trichotomy x.artist_ms y.artist_ms with h | h | h
  · right
    simp [h]
  · rcases Nat.le_total x.track_ms y.track_ms with h' | h'
    · right
      simp [h.symm, h']
    · left
      simp [h, h']
  · left
    simp [h]

theorem mergeLeB_trans (x y z : MergedRow) (h1 : mergeLeB x y = true)
    (h2 : mergeLeB y z = true) : mergeLeB x z = true := by
  unfold mergeLeB at h1 h2 ⊢
  simp only [Bool.or_eq_true, Bool.and_eq_true, decide_eq_true_eq,
    beq_iff_eq] at h1 h2 ⊢
  omega

/-! ## Rank lemmas (`method="first"` semantics) -/

theorem countGt_congr (t : MergedRow) (u : MergedRow) (l : List MergedRow)
    (ha : u.artist = t.artist) (hm : u.track_ms = t.track_ms) :
    countGt u l = countGt t l := by
  unfold countGt
  rw [ha, hm]

theorem countEq_congr (t : MergedRow) (u : MergedRow) (l : List MergedRow)
    (ha : u.artist = t.artist) (hm : u.track_ms = t.track_ms) :
    countEq u l = countEq t l := by
  unfold countEq
  rw [ha, hm]

theorem countP_or_disjoint {α : Type} (p q : α → Bool) (l : List α)
    (h : ∀ a, ¬(p a = true ∧ q a = true)) :
    l.countP (fun a => p a || q a) = l.countP p + l.countP q := by
  induction l with
  | nil => rfl
  | cons a t ih =>
    rw [List.countP_cons, List.countP_cons, List.countP_cons, ih]
    cases hp : p a with
    | true =>
      cases hq : q a with
      | true => exact absurd ⟨hp, hq⟩ (h a)
      | false =>
        simp
        omega
    | false =>
      cases hq : q a with
      | true =>
        simp
        omega
      | false => simp

theorem countGt_self_cons (t : MergedRow) (pre rest : List MergedRow) :
    countGt t (pre ++ t :: rest) = countGt t pre + countGt t rest := by
  unfold countGt
  rw [List.countP_append, List.countP_cons]
  simp [Nat.lt_irrefl]

theorem countEq_self_cons (t : MergedRow) (pre rest : List MergedRow) :
    countEq t (pre ++ t :: rest) = countEq t pre + countEq t rest + 1 := by
  unfold countEq
  rw [List.countP_append, List.countP_cons]
  simp
  omega

theorem rankGo_map_row (pre l : List MergedRow) :
    (rankGo pre l).map RankedRow.row = l := by
  induction l generalizing pre with
  | nil => rfl
  | cons t rest ih => rw [rankGo, List.map_cons, ih]

theorem rankGo_rank_lb (l : List MergedRow) : ∀ pre u, u ∈ rankGo pre l →
    1 + countGt u.row (pre ++ l) + countEq u.row pre ≤ u.rank_in_artist := by
  induction l with
  | nil =>
    intro pre u h
    cases h
  | cons t rest ih =>
    intro pre u h
    rw [rankGo] at h
    rcases List.mem_cons.mp h with h' | h'
    · subst h'
      dsimp only
      rw [countGt_self_cons]
      omega
    · have h2 := ih (pre ++ [t]) u h'
      rw [List.append_assoc, List.singleton_append] at h2
      have h3 : countEq u.row pre ≤ countEq u.row (pre ++ [t]) := by
        unfold countEq
        rw [List.countP_append]
        omega
      omega

theorem rankGo_rank_ub (l : List MergedRow) : ∀ pre u, u ∈ rankGo pre l →
    u.rank_in_artist ≤ countGt u.row (pre ++ l) + countEq u.row (pre ++ l) := by
  induction l with
  | nil =>
    intro pre u h
    cases h
  | cons t rest ih =>
    intro pre u h
    rw [rankGo] at h
    rcases List.mem_cons.mp h with h' | h'
    · subst h'
      dsimp only
      rw [countGt_self_cons, countEq_self_cons]
      omega
    · have h2 := ih (pre ++ [t]) u h'
      rw [List.append_assoc, List.singleton_append] at h2
      exact h2

/-- Within one artist, `rank(method="first", ascending=False)` ranks a
strictly larger total strictly lower (closer to 1), and among equal totals
the earlier row strictly lower. -/
theorem rankGo_pairwise (l : List MergedRow) : ∀ pre,
    (rankGo pre l).Pairwise (fun a b =>
      a.row.artist = b.row.artist →
        ((a.row.track_ms = b.row.track_ms →
            a.rank_in_artist < b.rank_in_artist) ∧
         (a.row.track_ms < b.row.track_ms →
            b.rank_in_artist < a.rank_in_artist) ∧
         (b.row.track_ms < a.row.track_ms →
            a.rank_in_artist < b.rank_in_artist))) := by
  induction l with
  | nil =>
    intro pre
    exact List.Pairwise.nil
  | cons t rest ih =>
    intro pre
    rw [rankGo]
    refine List.Pairwise.cons ?_ (ih (pre ++ [t]))
    intro u hu hart
    dsimp only at hart ⊢
    have hlb := rankGo_rank_lb rest (pre ++ [t]) u hu
    have hub := rankGo_rank_ub rest (pre ++ [t]) u hu
    rw [List.append_assoc, List.singleton_append] at hlb hub
    refine ⟨?_, ?_, ?_⟩
    · intro hms
      have e1 : countGt u.row (pre ++ t :: rest) = countGt t (pre ++ t :: rest) :=
        countGt_congr t u.row _ hart.symm hms.symm
      have e2 : countEq u.row (pre ++ [t]) = countEq t pre + 1 := by
        rw [countEq_congr t u.row _ hart.symm hms.symm]
        unfold countEq
        rw [List.countP_append]
        simp
      rw [e1, countGt_self_cons, e2] at hlb
      omega
    · intro hms
      have hdisj : ∀ v : MergedRow,
          ¬((v.artist == u.row.artist &&
              decide (u.row.track_ms < v.track_ms)) = true ∧
            (v.artist == u.row.artist &&
              v.track_ms == u.row.track_ms) = true) := by
        rintro v ⟨hv1, hv2⟩
        simp only [Bool.and_eq_true, decide_eq_true_eq, beq_iff_eq] at hv1 hv2
        omega
      have hsub : countGt u.row (pre ++ t :: rest) +
          countEq u.row (pre ++ t :: rest) ≤ countGt t (pre ++ t :: rest) := by
        unfold countGt countEq
        rw [← countP_or_disjoint _ _ _ hdisj]
        refine List.countP_mono_left ?_
        intro v _ hv
        simp only [Bool.or_eq_true, Bool.and_eq_true, decide_eq_true_eq,
          beq_iff_eq] at hv ⊢
        rcases hv with ⟨hva, hvm⟩ | ⟨hva, hvm⟩
        · exact ⟨hva.trans hart.symm, Nat.lt_trans hms hvm⟩
        · exact ⟨hva.trans hart.symm, hvm ▸ hms⟩
      rw [countGt_self_cons] at hsub
      omega
    · intro hms
      have hdisj : ∀ v : MergedRow,
          ¬((v.artist == t.artist && decide (t.track_ms < v.track_ms)) = true ∧
            (v.artist == t.artist && v.track_ms == t.track_ms) = true) := by
        rintro v ⟨hv1, hv2⟩
        simp only [Bool.and_eq_true, decide_eq_true_eq, beq_iff_eq] at hv1 hv2
        omega
      have hsub : countGt t (pre ++ t :: rest) + countEq t (pre ++ t :: rest) ≤
          countGt u.row (pre ++ t :: rest) := by
        unfold countGt countEq
        rw [← countP_or_disjoint _ _ _ hdisj]
        refine List.countP_mono_left ?_
        intro v _ hv
        simp only [Bool.or_eq_true, Bool.and_eq_true, decide_eq_true_eq,
          beq_iff_eq] at hv ⊢
        rcases hv with ⟨hva, hvm⟩ | ⟨hva, hvm⟩
        · exact ⟨hva.trans hart, Nat.lt_trans hms hvm⟩
        · exact ⟨hva.trans hart, hvm ▸ hms⟩
      rw [countGt_self_cons, countEq_self_cons] at hsub
      omega

/-! ## Claim C2: per-artist track ranking -/

/-- The track-totals frame lists its rows in strictly increasing
`(artist, track, uri)` key order (distinct keys, sorted grouping). -/
theorem trackTotals_pairwise_key (df : List Row) :
    (trackTotals df).Pairwise (fun x y => strictOf tkeyLeB x.key y.key) := by
  unfold trackTotals
  rw [List.pairwise_map]
  have hsorted := sorted_isort tkeyLeB tkeyLeB_total tkeyLeB_trans
    (dedupAcc [] (df.map (fun r => (r.artist, r.track, r.uri))))
  have hnodup := ((isort_perm tkeyLeB _).nodup_iff).mpr
    (nodup_dedupAcc_nil (df.map (fun r => (r.artist, r.track, r.uri))))
  refine (hsorted.and hnodup).imp ?_
  intro a b h
  refine ⟨h.1, ?_⟩
  cases hba : tkeyLeB b a with
  | false => exact hba
  | true => exact absurd (tkeyLeB_antisymm a b h.1 hba) h.2

theorem floored_pairwise_key (df : List Row) (floor : Option Nat) :
    (flooredTrackTotals df floor).Pairwise
      (fun x y => strictOf tkeyLeB x.key y.key) := by
  cases floor with
  | none => exact trackTotals_pairwise_key df
  | some m => exact (trackTotals_pairwise_key df).filter _

theorem mergeTop_pairwise_key (ts : List TrackTotal) (top : List ArtistTotal)
    (h : ts.Pairwise (fun x y => strictOf tkeyLeB x.key y.key)) :
    (mergeTop ts top).Pairwise (fun x y => strictOf tkeyLeB x.key y.key) := by
  unfold mergeTop
  refine List.Pairwise.filterMap _ ?_ h
  intro t t' hst b hb b' hb'
  rcases hfind : top.find? (fun a => a.artist == t.artist) with _ | a
  · rw [hfind] at hb
    simp at hb
  · rcases hfind' : top.find? (fun a => a.artist == t'.artist) with _ | a'
    · rw [hfind'] at hb'
      simp at hb'
    · rw [hfind] at hb
      rw [hfind'] at hb'
      simp only [Option.map_some', Option.mem_def, Option.some.injEq] at hb hb'
      rw [← hb, ← hb']
      exact hst

theorem mergeTop_artist_ms (ts : List TrackTotal) (top : List ArtistTotal)
    (x y : MergedRow) (hx : x ∈ mergeTop ts top) (hy : y ∈ mergeTop ts top)
    (h : x.artist = y.artist) : x.artist_ms = y.artist_ms := by
  rcases (mem_mergeTop ts top x).mp hx with ⟨t, _, a, hfa, hxe⟩
  rcases (mem_mergeTop ts top y).mp hy with ⟨t', _, a', hfa', hye⟩
  have hta : t.artist = t'.artist := by
    rw [hxe, hye] at h
    exact h
  have hpred : (fun a'' : ArtistTotal => a''.artist == t.artist) =
      (fun a'' : ArtistTotal => a''.artist == t'.artist) := by
    funext a''
    rw [hta]
  rw [hpred, hfa'] at hfa
  injection hfa with h2
  rw [hxe, hye, h2]

theorem sortedMerged_pairwise_lex (df : List Row) (ta : Nat)
    (floor : Option Nat) :
    (sortedMerged df ta floor).Pairwise
      (lexOf mergeLeB (fun x y => strictOf tkeyLeB x.key y.key)) :=
  pairwise_lex_isort mergeLeB (fun x y => strictOf tkeyLeB x.key y.key)
    mergeLeB_total mergeLeB_trans _
    (mergeTop_pairwise_key _ _ (floored_pairwise_key df floor))

/-- Pairwise facts about the ranked frame: the merge-stage lex/stability
relation on the underlying rows, conjoined with the rank comparisons. -/
theorem rankedRows_pairwise (df : List Row) (ta : Nat) (floor : Option Nat) :
    (rankedRows df ta floor).Pairwise (fun a b =>
      lexOf mergeLeB (fun x y => strictOf tkeyLeB x.key y.key) a.row b.row ∧
      (a.row.artist = b.row.artist →
        ((a.row.track_ms = b.row.track_ms →
            a.rank_in_artist < b.rank_in_artist) ∧
         (a.row.track_ms < b.row.track_ms →
            b.rank_in_artist < a.rank_in_artist) ∧
         (b.row.track_ms < a.row.track_ms →
            a.rank_in_artist < b.rank_in_artist)))) := by
  refine List.Pairwise.and ?_ (rankGo_pairwise _ [])
  have h1 := sortedMerged_pairwise_lex df ta floor
  rw [← rankGo_map_row [] (sortedMerged df ta floor), List.pairwise_map] at h1
  exact h1

theorem optLtB_irrefl (u : Option String) : optLtB u u = false := by
  cases u with
  | none => rfl
  | some a =>
    unfold optLtB
    show (optLeB (some a) (some a) && !optLeB (some a) (some a)) = false
    have h : optLeB (some a) (some a) = true := by
      show strLeB a a = true
      unfold strLeB
      rw [charListLt_irrefl]
      rfl
    rw [h]
    rfl

/-- C2 (amended): within each artist ranks are 1-based and rank tracks by
`total_ms` descending; for two of the artist's rows with *equal* totals the
smaller rank goes to the one earlier in ascending `(track, uri)` group-key
order — the order of the key-sorted TrackTotal frame — and *not* to the
first-seen one.  (Amendment forced by the counterexample: `groupby` sorts
the TrackTotal keys, so within a tie `rank(method="first")` follows
key order, not input order.) -/
theorem C2_amended_track_ranks (df : List Row) (ta : Nat) (floor : Option Nat) :
    (∀ r ∈ rankedRows df ta floor, 1 ≤ r.rank_in_artist) ∧
    (∀ x ∈ rankedRows df ta floor, ∀ y ∈ rankedRows df ta floor,
      x.row.artist = y.row.artist →
        (y.row.track_ms < x.row.track_ms →
          x.rank_in_artist < y.rank_in_artist) ∧
        (x.row.track_ms = y.row.track_ms →
          (strLtB x.row.track y.row.track = true ∨
            (x.row.track = y.row.track ∧ optLtB x.row.uri y.row.uri = true)) →
          x.rank_in_artist < y.rank_in_artist)) := by
  have hpair := rankedRows_pairwise df ta floor
  have hsym := List.Pairwise.forall
    (R := fun a b : RankedRow =>
      (lexOf mergeLeB (fun x y => strictOf tkeyLeB x.key y.key) a.row b.row ∧
        (a.row.artist = b.row.artist →
          ((a.row.track_ms = b.row.track_ms →
              a.rank_in_artist < b.rank_in_artist) ∧
           (a.row.track_ms < b.row.track_ms →
              b.rank_in_artist < a.rank_in_artist) ∧
           (b.row.track_ms < a.row.track_ms →
              a.rank_in_artist < b.rank_in_artist)))) ∨
      (lexOf mergeLeB (fun x y => strictOf tkeyLeB x.key y.key) b.row a.row ∧
        (b.row.artist = a.row.artist →
          ((b.row.track_ms = a.row.track_ms →
              b.rank_in_artist < a.rank_in_artist) ∧
           (b.row.track_ms < a.row.track_ms →
              a.rank_in_artist < b.rank_in_artist) ∧
           (a.row.track_ms < b.row.track_ms →
              b.rank_in_artist < a.rank_in_artist)))))
    (fun a b h => h.symm) (hpair.imp (fun h => Or.inl h))
  constructor
  · intro r hr
    have := rankGo_rank_lb (sortedMerged df ta floor) [] r hr
    omega
  · intro x hx y hy hart
    constructor
    · intro hms
      have hne : x ≠ y := by
        intro hh
        rw [hh] at hms
        exact Nat.lt_irrefl _ hms
      rcases hsym hx hy hne with ⟨_, h2⟩ | ⟨_, h2⟩
      · exact (h2 hart).2.2 hms
      · exact (h2 hart.symm).2.1 hms
    · intro hms hkey
      have hne : x ≠ y := by
        intro hh
        rw [hh] at hkey
        rcases hkey with hk | ⟨_, hk⟩
        · rw [strLtB_irrefl] at hk
          exact Bool.noConfusion hk
        · rw [optLtB_irrefl] at hk
          exact Bool.noConfusion hk
      have hxm : x.row ∈ mergeTop (flooredTrackTotals df floor) (artistTop df ta) :=
        (mem_isort _ _ x.row).mp (rankGo_row_mem [] _ x hx)
      have hym : y.row ∈ mergeTop (flooredTrackTotals df floor) (artistTop df ta) :=
        (mem_isort _ _ y.row).mp (rankGo_row_mem [] _ y hy)
      have hams : x.row.artist_ms = y.row.artist_ms :=
        mergeTop_artist_ms _ _ x.row y.row hxm hym hart
      rcases hsym hx hy hne with ⟨_, h2⟩ | ⟨hlex, _⟩
      · exact (h2 hart).1 hms
      · exfalso
        have hkxy : tkeyLeB x.row.key y.row.key = true := by
          unfold tkeyLeB MergedRow.key
          rw [hart]
          rw [strLtB_irrefl, beq_self_eq_true]
          rcases hkey with hk | ⟨hk1, hk2⟩
          · rw [hk]
            rfl
          · rw [hk1, strLtB_irrefl, beq_self_eq_true]
            unfold optLtB at hk2
            rcases Bool.and_eq_true .. |>.mp hk2 with ⟨hk3, _⟩
            rw [hk3]
            rfl
        rcases hlex with ⟨hm1, hm2⟩ | ⟨_, _, hstr⟩
        · unfold mergeLeB at hm2
          rw [hams, hms] at hm2
          simp at hm2
        · exact absurd hkxy (by rw [hstr.2]; simp)

/-- C2 counterexample: one artist, two tracks tied at `total_ms = 20000`;
"Z" is first-seen in the filtered input (second conjunct) while "B" is
later, so the claim assigns rank 1 to "Z" — but the code assigns rank 1 to
"B" and rank 2 to "Z" (first conjunct): the TrackTotal frame is sorted by
its group key, and the tie is resolved in that ascending key order. -/
theorem C2_counterexample :
    rankedRows [rowZ, rowBtrack] 1 none =
      [RankedRow.mk (MergedRow.mk "A" "B" (some "b") 20000 40000) 1,
       RankedRow.mk (MergedRow.mk "A" "Z" (some "z") 20000 40000) 2] ∧
    [rowZ, rowBtrack].map Row.track = ["Z", "B"] := by
  refine ⟨?_, rfl⟩
  decide

/-- Witness for `C2_amended_track_ranks`: on the concrete tie above, the
key-earlier row "B" gets the strictly smaller rank. -/
theorem C2_amended_witness :
    (RankedRow.mk (MergedRow.mk "A" "B" (some "b") 20000 40000) 1).rank_in_artist <
    (RankedRow.mk (MergedRow.mk "A" "Z" (some "z") 20000 40000) 2).rank_in_artist :=
  ((C2_amended_track_ranks [rowZ, rowBtrack] 1 none).2
    (RankedRow.mk (MergedRow.mk "A" "B" (some "b") 20000 40000) 1) (by decide)
    (RankedRow.mk (MergedRow.mk "A" "Z" (some "z") 20000 40000) 2) (by decide)
    (by decide)).2 (by decide) (Or.inl (by decide))

/-! ## Claim C10: size bounds of the final table and URI sequence -/

theorem filter_length_split {α : Type} (p : α → Bool) (l : List α) :
    (l.filter p).length + (l.filter (fun a => !(p a))).length = l.length := by
  induction l with
  | nil => rfl
  | cons a t ih =>
    cases h : p a <;> simp [List.filter_cons, h] <;> omega

/-- Grouping bound: if every key class of `l` has at most `M` elements,
then `l` is no longer than (number of distinct keys) × `M`. -/
theorem length_le_dedupF_mul {α κ : Type} [DecidableEq κ] (key : α → κ)
    (M : Nat) : ∀ n (l : List α), l.length ≤ n →
    (∀ k, (l.filter (fun x => key x == k)).length ≤ M) →
    l.length ≤ (dedupF (l.map key)).length * M := by
  intro n
  induction n with
  | zero =>
    intro l hl _
    cases l with
    | nil => simp
    | cons x t => exact absurd hl (by simp)
  | succ n ih =>
    intro l hl hk
    cases l with
    | nil => simp
    | cons x t =>
      have hhead : (x :: t).filter (fun a => !(key a == key x)) =
          t.filter (fun a => !(key a == key x)) := by
        rw [List.filter_cons]
        simp
      have hsplit := filter_length_split (fun a => key a == key x) (x :: t)
      rw [hhead] at hsplit
      have hlen' : (t.filter (fun a => !(key a == key x))).length ≤ n :=
        le_trans (List.length_filter_le _ _) (Nat.le_of_succ_le_succ hl)
      have hk' : ∀ k, ((t.filter (fun a => !(key a == key x))).filter
          (fun a => key a == k)).length ≤ M := by
        intro k
        refine le_trans ?_ (hk k)
        rw [← List.countP_eq_length_filter, ← List.countP_eq_length_filter,
          List.countP_filter, List.countP_cons]
        refine le_trans (List.countP_mono_left ?_) (Nat.le_add_right _ _)
        intro a _ ha
        simp only [Bool.and_eq_true] at ha
        exact ha.1
      have ihl := ih _ hlen' hk'
      have hmapf : (t.filter (fun a => !(key a == key x))).map key =
          (t.map key).filter (fun b => b ≠ key x) := by
        rw [List.filter_map]
        congr 1
        refine List.filter_congr fun a _ => ?_
        by_cases h : key a = key x <;> simp [h]
      have hd : dedupF ((x :: t).map key) =
          key x :: dedupF ((t.filter (fun a => !(key a == key x))).map key) := by
        rw [List.map_cons, dedupF_cons, hmapf]
      have hc := hk (key x)
      simp only [List.length_cons] at hsplit
      rw [hd]
      simp only [List.length_cons]
      rw [Nat.succ_mul]
      omega

theorem mergeTop_artist_mem (ts : List TrackTotal) (top : List ArtistTotal)
    (x : MergedRow) (hx : x ∈ mergeTop ts top) :
    x.artist ∈ top.map ArtistTotal.artist := by
  rcases (mem_mergeTop ts top x).mp hx with ⟨t, _, a, hfa, hxe⟩
  have ha : a ∈ top := List.mem_of_find?_eq_some hfa
  have hpa := List.find?_some hfa
  rw [beq_iff_eq] at hpa
  rw [hxe]
  rw [List.mem_map]
  exact ⟨a, ha, hpa⟩

/-- C10: every final row's rank is at most `tracks_per_artist`; the final
table mentions at most `top_artists` distinct artists; and the URI
sequence has at most `top_artists × tracks_per_artist` entries. -/
theorem C10_size_bounds (df : List Row) (ta tpa : Nat) (floor : Option Nat) :
    (∀ r ∈ orderedRows df ta tpa floor, r.rank_in_artist ≤ tpa) ∧
    (dedupF ((orderedRows df ta tpa floor).map (fun r => r.row.artist))).length
      ≤ ta ∧
    (playlist_uris df ta tpa floor).length ≤ ta * tpa := by
  have hrank : ∀ r ∈ orderedRows df ta tpa floor, r.rank_in_artist ≤ tpa := by
    intro r hr
    have h1 : r ∈ keptRows df ta tpa floor := (mem_isort _ _ r).mp hr
    have h4 := List.of_mem_filter h1
    rw [decide_eq_true_eq] at h4
    exact h4
  have hartmem : ∀ r ∈ orderedRows df ta tpa floor,
      r.row.artist ∈ (artistTop df ta).map ArtistTotal.artist := by
    intro r hr
    have h1 : r ∈ keptRows df ta tpa floor := (mem_isort _ _ r).mp hr
    have h2 : r ∈ rankedRows df ta floor := List.mem_of_mem_filter h1
    have h3 : r.row ∈ sortedMerged df ta floor := rankGo_row_mem [] _ r h2
    have h4 : r.row ∈ mergeTop (flooredTrackTotals df floor) (artistTop df ta) :=
      (mem_isort _ _ r.row).mp h3
    exact mergeTop_artist_mem _ _ r.row h4
  have hartists : (dedupF ((orderedRows df ta tpa floor).map
      (fun r => r.row.artist))).length ≤ ta := by
    have hsub : (dedupF ((orderedRows df ta tpa floor).map
        (fun r => r.row.artist))).toFinset ⊆
        ((artistTop df ta).map ArtistTotal.artist).toFinset := by
      intro s hs
      rw [List.mem_toFinset] at hs ⊢
      rw [mem_dedupF, List.mem_map] at hs
      rcases hs with ⟨r, hr, hre⟩
      exact hre ▸ hartmem r hr
    have h5 := List.toFinset_card_of_nodup (nodup_dedupF
      ((orderedRows df ta tpa floor).map (fun r => r.row.artist)))
    have h7 := Finset.card_le_card hsub
    have h8 := List.toFinset_card_le ((artistTop df ta).map ArtistTotal.artist)
    have h9 : ((artistTop df ta).map ArtistTotal.artist).length ≤ ta := by
      rw [List.length_map]
      exact List.length_take_le _ _
    omega
  have hpairD : (orderedRows df ta tpa floor).Pairwise
      (fun a b => a.row.artist = b.row.artist →
        a.rank_in_artist ≠ b.rank_in_artist) := by
    have h0 := rankGo_pairwise (sortedMerged df ta floor) []
    have h1 : (rankedRows df ta floor).Pairwise
        (fun a b => a.row.artist = b.row.artist →
          a.rank_in_artist ≠ b.rank_in_artist) := by
      refine h0.imp ?_
      intro a b h hart
      rcases Nat.lt_trichotomy a.row.track_ms b.row.track_ms with hm | hm | hm
      · exact Nat.ne_of_gt ((h hart).2.1 hm)
      · exact Nat.ne_of_lt ((h hart).1 hm)
      · exact Nat.ne_of_lt ((h hart).2.2 hm)
    have hsymmD : Symmetric (fun a b : RankedRow =>
        a.row.artist = b.row.artist →
          a.rank_in_artist ≠ b.rank_in_artist) := by
      intro a b h hart
      exact (h hart.symm).symm
    exact (List.Perm.pairwise_iff (fun hab => hsymmD hab) (isort_perm finalLeB _)).mpr (h1.filter _)
  have hcount : ∀ k, ((orderedRows df ta tpa floor).filter
      (fun r => r.row.artist == k)).length ≤ tpa := by
    intro k
    have hFpair : ((orderedRows df ta tpa floor).filter
        (fun r => r.row.artist == k)).Pairwise
        (fun a b => a.rank_in_artist ≠ b.rank_in_artist) := by
      refine List.Pairwise.imp_of_mem ?_ (hpairD.filter _)
      intro a b ha hb h
      have ha' := List.of_mem_filter ha
      have hb' := List.of_mem_filter hb
      rw [beq_iff_eq] at ha' hb'
      exact h (ha'.trans hb'.symm)
    have hnodupmap : (((orderedRows df ta tpa floor).filter
        (fun r => r.row.artist == k)).map RankedRow.rank_in_artist).Nodup := by
      unfold List.Nodup
      rw [List.pairwise_map]
      exact hFpair
    have hmem : ∀ m ∈ ((orderedRows df ta tpa floor).filter
        (fun r => r.row.artist == k)).map RankedRow.rank_in_artist,
        m ∈ Finset.Icc 1 tpa := by
      intro m hm
      rw [List.mem_map] at hm
      rcases hm with ⟨r, hr, hre⟩
      have hrO : r ∈ orderedRows df ta tpa floor := List.mem_of_mem_filter hr
      have h1 : r ∈ keptRows df ta tpa floor := (mem_isort _ _ r).mp hrO
      have h2 : r ∈ rankedRows df ta floor := List.mem_of_mem_filter h1
      have h3 := rankGo_rank_lb (sortedMerged df ta floor) [] r h2
      rw [Finset.mem_Icc, ← hre]
      exact ⟨by omega, hrank r hrO⟩
    have h5 := List.toFinset_card_of_nodup hnodupmap
    have h6 : (((orderedRows df ta tpa floor).filter
        (fun r => r.row.artist == k)).map RankedRow.rank_in_artist).toFinset ⊆
        Finset.Icc 1 tpa := by
      intro m hm
      rw [List.mem_toFinset] at hm
      exact hmem m hm
    have h7 := Finset.card_le_card h6
    rw [Nat.card_Icc] at h7
    have h8 := List.length_map ((orderedRows df ta tpa floor).filter
      (fun r => r.row.artist == k)) RankedRow.rank_in_artist
    omega
  have hOlen : (orderedRows df ta tpa floor).length ≤
      (dedupF ((orderedRows df ta tpa floor).map
        (fun r => r.row.artist))).length * tpa :=
    length_le_dedupF_mul (fun r => r.row.artist) tpa
      (orderedRows df ta tpa floor).length _ (le_refl _) hcount
  have huris : (playlist_uris df ta tpa floor).length ≤
      (orderedRows df ta tpa floor).length := by
    rw [playlist_uris, dedupSeenRows_eq, dedupAcc_nil]
    exact le_trans (length_dedupF_le _) (List.length_filterMap_le _ _)
  refine ⟨hrank, hartists, ?_⟩
  have := Nat.mul_le_mul hartists (le_refl tpa)
  omega

/-! ## Claim C9: monotonicity in `top_artists` and `tracks_per_artist` -/

theorem countGt_filter_artist (t : MergedRow) (k : String) (l : List MergedRow)
    (ht : t.artist = k) :
    countGt t (l.filter (fun v => v.artist == k)) = countGt t l := by
  unfold countGt
  rw [List.countP_filter]
  refine List.countP_congr ?_
  intro v _
  constructor
  · intro h
    simp only [Bool.and_eq_true] at h ⊢
    exact h.1
  · intro h
    simp only [Bool.and_eq_true] at h ⊢
    exact ⟨h, beq_iff_eq.mpr ((beq_iff_eq.mp h.1).trans ht)⟩

theorem countEq_filter_artist (t : MergedRow) (k : String) (l : List MergedRow)
    (ht : t.artist = k) :
    countEq t (l.filter (fun v => v.artist == k)) = countEq t l := by
  unfold countEq
  rw [List.countP_filter]
  refine List.countP_congr ?_
  intro v _
  constructor
  · intro h
    simp only [Bool.and_eq_true] at h ⊢
    exact h.1
  · intro h
    simp only [Bool.and_eq_true] at h ⊢
    exact ⟨h, beq_iff_eq.mpr ((beq_iff_eq.mp h.1).trans ht)⟩

/-- Ranks are local to an artist: filtering the ranked frame to one artist
is the same as ranking the frame filtered to that artist. -/
theorem rankGo_filter_artist (k : String) :
    ∀ (l pre : List MergedRow),
    (rankGo pre l).filter (fun q => q.row.artist == k) =
      rankGo (pre.filter (fun v => v.artist == k))
        (l.filter (fun v => v.artist == k)) := by
  intro l
  induction l with
  | nil =>
    intro pre
    rfl
  | cons t rest ih =>
    intro pre
    rw [rankGo, List.filter_cons, List.filter_cons]
    dsimp only
    cases ht : t.artist == k with
    | true =>
      rw [if_pos rfl, if_pos rfl, rankGo, ih (pre ++ [t])]
      have e1 := countGt_filter_artist t k pre (beq_iff_eq.mp ht)
      have e2 := countGt_filter_artist t k rest (beq_iff_eq.mp ht)
      have e3 := countEq_filter_artist t k pre (beq_iff_eq.mp ht)
      rw [e1, e2, e3, List.filter_append]
      have e4 : [t].filter (fun v => v.artist == k) = [t] := by
        rw [List.filter_cons, if_pos ht]
        rfl
      rw [e4]
    | false =>
      rw [if_neg (by simp), ih (pre ++ [t]), List.filter_append,
        if_neg (by simp)]
      have e4 : [t].filter (fun v => v.artist == k) = [] := by
        rw [List.filter_cons, if_neg (by simp [ht])]
        rfl
      rw [e4, List.append_nil]

/-- The one-artist slice of the merged frame depends on the selected-artist
frame only through `find?` at that artist. -/
theorem mergeTop_filter_artist (ts : List TrackTotal)
    (top1 top2 : List ArtistTotal) (k : String)
    (hfind : top1.find? (fun a => a.artist == k) =
      top2.find? (fun a => a.artist == k)) :
    (mergeTop ts top1).filter (fun v => v.artist == k) =
      (mergeTop ts top2).filter (fun v => v.artist == k) := by
  induction ts with
  | nil => rfl
  | cons t rest ih =>
    unfold mergeTop
    by_cases ht : t.artist = k
    · have hp : (fun a : ArtistTotal => a.artist == t.artist) =
          (fun a : ArtistTotal => a.artist == k) := by
        funext a
        rw [ht]
      cases h2 : top2.find? (fun a : ArtistTotal => a.artist == k) with
      | none =>
        have hn1 : Option.map (fun a => (MergedRow.mk t.artist t.track t.uri
            t.track_ms a.artist_ms))
            (top1.find? (fun a : ArtistTotal => a.artist == t.artist)) = none := by
          rw [hp, hfind, h2]
          rfl
        have hn2 : Option.map (fun a => (MergedRow.mk t.artist t.track t.uri
            t.track_ms a.artist_ms))
            (top2.find? (fun a : ArtistTotal => a.artist == t.artist)) = none := by
          rw [hp, h2]
          rfl
        rw [List.filterMap_cons_none (f := fun u : TrackTotal => Option.map (fun a => (MergedRow.mk u.artist u.track u.uri u.track_ms a.artist_ms)) (top1.find? (fun a : ArtistTotal => a.artist == u.artist))) hn1,
          List.filterMap_cons_none (f := fun u : TrackTotal => Option.map (fun a => (MergedRow.mk u.artist u.track u.uri u.track_ms a.artist_ms)) (top2.find? (fun a : ArtistTotal => a.artist == u.artist))) hn2]
        exact ih
      | some a =>
        have hn1 : Option.map (fun a => (MergedRow.mk t.artist t.track t.uri
            t.track_ms a.artist_ms))
            (top1.find? (fun a : ArtistTotal => a.artist == t.artist)) =
            some (MergedRow.mk t.artist t.track t.uri t.track_ms a.artist_ms) := by
          rw [hp, hfind, h2]
          rfl
        have hn2 : Option.map (fun a => (MergedRow.mk t.artist t.track t.uri
            t.track_ms a.artist_ms))
            (top2.find? (fun a : ArtistTotal => a.artist == t.artist)) =
            some (MergedRow.mk t.artist t.track t.uri t.track_ms a.artist_ms) := by
          rw [hp, h2]
          rfl
        rw [List.filterMap_cons_some (f := fun u : TrackTotal => Option.map (fun a => (MergedRow.mk u.artist u.track u.uri u.track_ms a.artist_ms)) (top1.find? (fun a : ArtistTotal => a.artist == u.artist))) hn1,
          List.filterMap_cons_some (f := fun u : TrackTotal => Option.map (fun a => (MergedRow.mk u.artist u.track u.uri u.track_ms a.artist_ms)) (top2.find? (fun a : ArtistTotal => a.artist == u.artist))) hn2,
          List.filter_cons, List.filter_cons]
        have hc : (((MergedRow.mk t.artist t.track t.uri t.track_ms
            a.artist_ms)).artist == k) = true := beq_iff_eq.mpr ht
        rw [if_pos hc, if_pos hc]
        unfold mergeTop at ih
        rw [ih]
    · have hgen : ∀ (top : List ArtistTotal),
          ((t :: rest).filterMap (fun t' =>
            Option.map (fun a => (MergedRow.mk t'.artist t'.track t'.uri
              t'.track_ms a.artist_ms))
              (top.find? (fun a : ArtistTotal => a.artist == t'.artist)))).filter
            (fun v => v.artist == k) =
          (rest.filterMap (fun t' =>
            Option.map (fun a => (MergedRow.mk t'.artist t'.track t'.uri
              t'.track_ms a.artist_ms))
              (top.find? (fun a : ArtistTotal => a.artist == t'.artist)))).filter
            (fun v => v.artist == k) := by
        intro top
        cases h1 : top.find? (fun a : ArtistTotal => a.artist == t.artist) with
        | none =>
          have hs : (fun u : TrackTotal => Option.map (fun a => (MergedRow.mk u.artist u.track u.uri u.track_ms a.artist_ms)) (top.find? (fun a : ArtistTotal => a.artist == u.artist))) t = none := by
            dsimp only
            rw [h1]
            rfl
          rw [List.filterMap_cons_none (f := fun u : TrackTotal => Option.map (fun a => (MergedRow.mk u.artist u.track u.uri u.track_ms a.artist_ms)) (top.find? (fun a : ArtistTotal => a.artist == u.artist))) hs]
        | some a1 =>
          have hs : (fun u : TrackTotal => Option.map (fun a => (MergedRow.mk u.artist u.track u.uri u.track_ms a.artist_ms)) (top.find? (fun a : ArtistTotal => a.artist == u.artist))) t =
              some (MergedRow.mk t.artist t.track t.uri t.track_ms a1.artist_ms) := by
            dsimp only
            rw [h1]
            rfl
          rw [List.filterMap_cons_some (f := fun u : TrackTotal => Option.map (fun a => (MergedRow.mk u.artist u.track u.uri u.track_ms a.artist_ms)) (top.find? (fun a : ArtistTotal => a.artist == u.artist))) hs,
            List.filter_cons, if_neg (by simp [ht])]
      rw [hgen top1, hgen top2]
      exact ih

theorem find?_take_mono {α : Type} (p : α → Bool) (l : List α) (m m' : Nat)
    (h : m ≤ m') (a : α) (hf : (l.take m).find? p = some a) :
    (l.take m').find? p = some a := by
  have he : l.take m' = l.take m ++ (l.drop m).take (m' - m) := by
    rw [← List.take_add]
    congr 1
    omega
  rw [he, List.find?_append, hf]
  rfl

/-- C9: with everything else fixed, raising `top_artists` keeps every
artist of the smaller result in the larger result, and raising
`tracks_per_artist` keeps every final-table row of the smaller result in
the larger result. -/
theorem C9_monotonicity (df : List Row) (floor : Option Nat)
    (ta ta' tpa tpa' : Nat) (hta : ta ≤ ta') (htpa : tpa ≤ tpa') :
    (∀ k, (∃ r ∈ orderedRows df ta tpa floor, r.row.artist = k) →
      (∃ r ∈ orderedRows df ta' tpa floor, r.row.artist = k)) ∧
    (∀ r ∈ orderedRows df ta tpa floor, r ∈ orderedRows df ta tpa' floor) := by
  constructor
  · rintro k ⟨r, hr, hak⟩
    have h1 : r ∈ keptRows df ta tpa floor := (mem_isort _ _ r).mp hr
    unfold keptRows at h1
    rw [List.mem_filter] at h1
    obtain ⟨h2, h3⟩ := h1
    have h4 : r.row ∈ mergeTop (flooredTrackTotals df floor) (artistTop df ta) :=
      (mem_isort _ _ r.row).mp (rankGo_row_mem [] _ r h2)
    rcases (mem_mergeTop _ _ r.row).mp h4 with ⟨t, _, a, hfa, hxe⟩
    have htk : t.artist = k := by
      rw [hxe] at hak
      exact hak
    have hfa' : (artistTop df ta).find? (fun a' => a'.artist == k) = some a := by
      have hp : (fun a' : ArtistTotal => a'.artist == t.artist) =
          (fun a' : ArtistTotal => a'.artist == k) := by
        funext a'
        rw [htk]
      rw [← hp]
      exact hfa
    have hfind2 : (artistTop df ta').find? (fun a' => a'.artist == k) = some a :=
      find?_take_mono _ (artistOrder df) ta ta' hta a hfa'
    have hfindeq : (artistTop df ta).find? (fun a' => a'.artist == k) =
        (artistTop df ta').find? (fun a' => a'.artist == k) := by
      rw [hfa', hfind2]
    have hkey : (rankedRows df ta floor).filter (fun q => q.row.artist == k) =
        (rankedRows df ta' floor).filter (fun q => q.row.artist == k) := by
      unfold rankedRows rankRows
      rw [rankGo_filter_artist k _ [], rankGo_filter_artist k _ []]
      congr 1
      unfold sortedMerged
      rw [filter_isort_comm mergeLeB (fun v => v.artist == k)
          mergeLeB_total mergeLeB_trans,
        filter_isort_comm mergeLeB (fun v => v.artist == k)
          mergeLeB_total mergeLeB_trans]
      congr 1
      exact mergeTop_filter_artist _ _ _ k hfindeq
    have h5 : r ∈ (rankedRows df ta floor).filter (fun q => q.row.artist == k) :=
      List.mem_filter.mpr ⟨h2, beq_iff_eq.mpr hak⟩
    rw [hkey, List.mem_filter] at h5
    exact ⟨r, (mem_isort _ _ r).mpr (List.mem_filter.mpr ⟨h5.1, h3⟩), hak⟩
  · intro r hr
    have h1 : r ∈ keptRows df ta tpa floor := (mem_isort _ _ r).mp hr
    unfold keptRows at h1
    rw [List.mem_filter] at h1
    have h3 : r ∈ keptRows df ta tpa' floor := by
      unfold keptRows
      rw [List.mem_filter]
      refine ⟨h1.1, ?_⟩
      have h2 := h1.2
      rw [decide_eq_true_eq] at h2 ⊢
      omega
    exact (mem_isort _ _ r).mpr h3

/-- Witness for `C9_monotonicity`: artist "B" is in the `top_artists = 1`
result for a concrete run, hence also in the `top_artists = 2` result. -/
theorem C9_witness :
    ∃ r ∈ orderedRows [rowA, rowB] 2 1 none, r.row.artist = "B" :=
  (C9_monotonicity [rowA, rowB] none 1 2 1 2 (by decide) (by decide)).1 "B"
    ⟨RankedRow.mk (MergedRow.mk "B" "T" (some "b") 100 100) 1, by decide, rfl⟩

/-- Witness for C10: at a concrete input, the rank bound of `C10_size_bounds`
applies to a concrete row of the final table. -/
theorem C10_witness :
    (RankedRow.mk (MergedRow.mk "A" "B" (some "b") 20000 40000) 1) ∈
      orderedRows [rowZ, rowBtrack] 1 1 none ∧
    (RankedRow.mk (MergedRow.mk "A" "B" (some "b") 20000 40000)
      1).rank_in_artist ≤ 1 :=
  ⟨by decide, (C10_size_bounds [rowZ, rowBtrack] 1 1 none).1 _ (by decide)⟩
